import Mathlib

/-!
# Bank ledger of `assignment5.c`

A shallow embedding of `src/assignment5.c`, followed by the properties of the
specification that concern it.  The program is modelled at three levels:

* `process_transaction`, `client_thread` and `run_schedule` are functions on the
  account table, one whole transaction at a time, with balances in the integers;
  `process_transaction_int` and `run_schedule_int` are the same functions with the
  arithmetic of a 32-bit `int`;
* `initialize_bank` and `main` read the input file and print the report;
* `step` and `run` are a small-step model of the client threads with their mutexes,
  in which the loop of `process_transaction` is walked index by index.  The theorem
  `atomicity` relates it to the first level.

Modelling conventions.

* The global array `accounts` (with `number_of_accounts`) is a `List BankAccount`
  that every function receives and returns explicitly.
* `char[10]` buffers are `String`s and `strcmp(a, b) == 0` is equality of strings.
* A C `int` is an integer (`Int`).  Statements that depend on the size of a result
  use the `_int` functions, which wrap around at the bounds of a 32-bit `int`.
-/

namespace Bank

/-- Bank account structure (`BankAccount`).  The `pthread_mutex_t` field carries
no data of its own; its owner is kept in `World.mutexes` of the thread model below. -/
structure BankAccount where
  account_name : String
  balance : Int
  deriving DecidableEq, Repr

/-- Transaction structure (`Transaction`): `type` is compared with `"deposit"`
and `"withdraw"`. -/
structure Transaction where
  type : String
  account_name : String
  amount : Int
  deriving DecidableEq, Repr

/-- Body of the critical section of `process_transaction` (source lines 243-249)
for the account that was found. -/
def apply_transaction (a : BankAccount) (t : Transaction) : BankAccount :=
  if t.type = "deposit" then
    { a with balance := a.balance + t.amount }
  else if t.type = "withdraw" then
    if a.balance ≥ t.amount then
      { a with balance := a.balance - t.amount }
    else a
  else a

/-- The function `process_transaction`: the `for` loop walks the account table from
index 0; the first account whose name equals the transaction's account name is
updated and the loop stops (`break`); the other accounts are not touched. -/
def process_transaction : List BankAccount → Transaction → List BankAccount
  | [], _ => []
  | a :: rest, t =>
    if a.account_name = t.account_name then
      apply_transaction a t :: rest
    else
      a :: process_transaction rest t

/-- The function `client_thread`: the transactions of one client operation are
processed one after the other, in index order. -/
def client_thread (accounts : List BankAccount) (transactions : List Transaction) :
    List BankAccount :=
  transactions.foldl process_transaction accounts

/-- Ledger after the calls of `process_transaction` made by all client threads,
in the global order `schedule` in which the calls took effect. -/
def run_schedule (accounts : List BankAccount) (schedule : List Transaction) :
    List BankAccount :=
  schedule.foldl process_transaction accounts

/-- The schedules of whole transactions that `main` can produce from the clients'
transaction lists: at each step some client `k` that still has transactions left
runs its next one, so every client's own order is kept, and the run ends when
every list is exhausted (`pthread_join` of all threads). -/
inductive Interleaving : List (List Transaction) → List Transaction → Prop
  | done {clients : List (List Transaction)} :
      (∀ c ∈ clients, c = []) → Interleaving clients []
  | step {clients : List (List Transaction)} {k : Nat} {t : Transaction}
      {rest schedule : List Transaction} :
      clients[k]? = some (t :: rest) →
      Interleaving (clients.set k rest) schedule →
      Interleaving clients (t :: schedule)

/-- All schedules of at most `n` transactions that `Interleaving clients` admits,
listed by the index of the client that moves first. -/
def interleavings : Nat → List (List Transaction) → List (List Transaction)
  | 0, clients => if clients.all List.isEmpty then [[]] else []
  | n + 1, clients =>
    (if clients.all List.isEmpty then [[]] else []) ++
    (List.range clients.length).flatMap (fun k =>
      match clients[k]? with
      | some (t :: rest) => (interleavings n (clients.set k rest)).map (fun s => t :: s)
      | _ => [])

/-- Index `i` holds the first account of the table named `name`: the account at
which the loop of `process_transaction` stops. -/
def first_match (accounts : List BankAccount) (name : String) (i : Nat) : Prop :=
  (∃ a, accounts[i]? = some a ∧ a.account_name = name) ∧
  ∀ j b, j < i → accounts[j]? = some b → b.account_name ≠ name

/-- Sum of the amounts of the transactions of `ts` that name account `name`. -/
def amount_to (name : String) (ts : List Transaction) : Int :=
  ((ts.filter (fun t => t.account_name = name)).map (fun t => t.amount)).sum

/-- What `main` prints after joining the threads: name and balance of every
account, by increasing index. -/
def report (accounts : List BankAccount) : List (String × Int) :=
  accounts.map (fun a => (a.account_name, a.balance))

/-! ### Arithmetic of `int`

The functions above compute in the integers.  The ones below store what a 32-bit
`int` holds after the same operation: a result outside `INT_MIN .. INT_MAX` wraps
around modulo `2^32`, as on the two's complement machines the program is built for
(ISO C leaves signed overflow undefined).  Both agree as long as no result leaves
the range (`process_transaction_int_eq`). -/

/-- The values of a 32-bit `int`: `INT_MIN <= x <= INT_MAX`. -/
def in_int (x : Int) : Bool :=
  decide (-2147483648 ≤ x) && decide (x ≤ 2147483647)

/-- The value that a 32-bit `int` holds for the mathematical result `x`. -/
def wrap_int (x : Int) : Int :=
  (x + 2147483648) % 4294967296 - 2147483648

/-- The critical section of `process_transaction` with the arithmetic of `int`. -/
def apply_transaction_int (a : BankAccount) (t : Transaction) : BankAccount :=
  if t.type = "deposit" then
    { a with balance := wrap_int (a.balance + t.amount) }
  else if t.type = "withdraw" then
    if a.balance ≥ t.amount then
      { a with balance := wrap_int (a.balance - t.amount) }
    else a
  else a

/-- The function `process_transaction` with the arithmetic of `int`. -/
def process_transaction_int : List BankAccount → Transaction → List BankAccount
  | [], _ => []
  | a :: rest, t =>
    if a.account_name = t.account_name then
      apply_transaction_int a t :: rest
    else
      a :: process_transaction_int rest t

/-- Ledger after the calls of `process_transaction` in the order `schedule`, with the
arithmetic of `int`. -/
def run_schedule_int (accounts : List BankAccount) (schedule : List Transaction) :
    List BankAccount :=
  schedule.foldl process_transaction_int accounts

/-! ### Reading the input file (`initialize`) and `main`

The input file is a text.  Where the C code leaves defined behaviour, or where a
byte is not one ASCII character, `initialize_bank` answers `outside` and says
nothing about the program. -/

/-- Client operation structure (`ClientOperation`); `num_transactions` is the length
of `transactions`. -/
structure ClientOperation where
  client_name : String
  transactions : List Transaction
  deriving DecidableEq, Repr

/-- A byte that is one character of the text: ASCII and not NUL.  On other bytes
the C string functions and this model, which counts characters, part ways. -/
def plain (c : Char) : Bool :=
  decide (1 ≤ c.toNat) && decide (c.toNat ≤ 127)

/-- White space as `sscanf` understands it (`isspace` in the C locale). -/
def isspace (c : Char) : Bool :=
  c = ' ' || c = '\t' || c = '\n' || c = '\x0b' || c = '\x0c' || c = '\r'

/-- Decimal digit (`isdigit`). -/
def isdigit (c : Char) : Bool :=
  decide (48 ≤ c.toNat) && decide (c.toNat ≤ 57)

/-- The call `fgets(line, n + 1, file)`: at most `n` characters are read, and reading
stops after a newline.  Returns the line and the rest of the file. -/
def fgets : Nat → List Char → List Char × List Char
  | 0, cs => ([], cs)
  | _, [] => ([], [])
  | n + 1, c :: cs =>
    if c = '\n' then ([c], cs)
    else ((fgets n cs).1.cons c, (fgets n cs).2)

/-- The lines that the loop `while (fgets(line, sizeof(line), file))` sees, with
`char line[200]`.  Every call consumes at least one character, so `fuel` equal to the
length of the file is enough. -/
def read_lines : Nat → List Char → List (List Char)
  | 0, _ => []
  | _ + 1, [] => []
  | fuel + 1, c :: cs =>
    (fgets 199 (c :: cs)).1 :: read_lines fuel (fgets 199 (c :: cs)).2

/-- Conversion `%s` of `sscanf`: skips white space, then takes the longest run of
characters that are not white space; fails at the end of the input.  The word is
returned whole; the callers check it against the `char[10]` it is stored in. -/
def scan_s (input : List Char) : Option (String × List Char) :=
  if (input.dropWhile isspace).takeWhile (fun c => !isspace c) = [] then none
  else some (String.mk ((input.dropWhile isspace).takeWhile (fun c => !isspace c)),
    (input.dropWhile isspace).dropWhile (fun c => !isspace c))

/-- A word with its terminating NUL fits a `char[10]` buffer. -/
def fits (w : String) : Bool :=
  decide (w.length ≤ 9)

/-- Value of a run of decimal digits. -/
def digits_value (ds : List Char) : Nat :=
  ds.foldl (fun v c => 10 * v + (c.toNat - 48)) 0

/-- Conversion `%d` of `sscanf`: skips white space, reads an optional sign and at
least one decimal digit.  The value is returned as an integer; the callers check
that it is the value of an `int`. -/
def scan_d (input : List Char) : Option (Int × List Char) :=
  if ((if (input.dropWhile isspace).head? = some '-' ∨ (input.dropWhile isspace).head? = some '+'
        then (input.dropWhile isspace).tail else input.dropWhile isspace).takeWhile isdigit) = []
  then none
  else some
    (if (input.dropWhile isspace).head? = some '-' then
        - (digits_value ((input.dropWhile isspace).tail.takeWhile isdigit) : Int)
      else
        (digits_value ((if (input.dropWhile isspace).head? = some '+'
          then (input.dropWhile isspace).tail
          else input.dropWhile isspace).takeWhile isdigit) : Int),
     (if (input.dropWhile isspace).head? = some '-' ∨ (input.dropWhile isspace).head? = some '+'
        then (input.dropWhile isspace).tail else input.dropWhile isspace).dropWhile isdigit)

/-- Ordinary characters of a `sscanf` format: they must be the next characters of the
input. -/
def scan_literal : List Char → List Char → Option (List Char)
  | [], input => some input
  | _ :: _, [] => none
  | l :: ls, c :: cs => if l = c then scan_literal ls cs else none

/-- The call `sscanf(line, "%s balance %d", account_name, &balance)`: the values that
were assigned, `none` for an argument that the call left untouched. -/
def scan_account (line : List Char) : Option String × Option Int :=
  match scan_s line with
  | none => (none, none)
  | some (name, r1) =>
    match scan_literal "balance".toList (r1.dropWhile isspace) with
    | none => (some name, none)
    | some r2 =>
      match scan_d (r2.dropWhile isspace) with
      | none => (some name, none)
      | some (v, _) => (some name, some v)

/-- Result of one round of the transaction loop of `initialize`. -/
inductive Read
  /-- A word does not fit its `char[10]` or the number is not an `int`. -/
  | outside
  /-- The call returned less than 3: `break`. -/
  | stop
  /-- The call returned 3 and the transaction is stored. -/
  | item (t : Transaction)
  deriving DecidableEq, Repr

/-- The call `sscanf(ptr, "%s %s %d", transaction_type, account, &amount)` together
with the test `read == 3`.  The words that were read are written to their buffers
also when a later item fails. -/
def scan_transaction (ptr : List Char) : Read :=
  match scan_s ptr with
  | none => .stop
  | some (ty, r1) =>
    if fits ty then
      match scan_s r1 with
      | none => .stop
      | some (acc, r2) =>
        if fits acc then
          match scan_d r2 with
          | none => .stop
          | some (amt, _) => if in_int amt then .item ⟨ty, acc, amt⟩ else .outside
        else .outside
    else .outside

/-- One round of `while (*ptr && *ptr != ' ') ptr++; if (*ptr == ' ') ptr++;`. -/
def skip_word (ptr : List Char) : List Char :=
  (ptr.dropWhile (fun c => c != ' ')).tail

/-- The loop `while (ptr && *ptr)` of `initialize` that parses the transactions of a
client line, from a non-null `ptr`; `none` when a round is `outside`.  Every round
moves `ptr` by at least one character, so `fuel` equal to the length of the line is
enough. -/
def parse_transactions : Nat → List Char → Option (List Transaction)
  | 0, _ => some []
  | _ + 1, [] => some []
  | fuel + 1, c :: cs =>
    match scan_transaction (c :: cs) with
    | .outside => none
    | .stop => some []
    | .item t =>
      match parse_transactions fuel (skip_word (skip_word (skip_word (c :: cs)))) with
      | none => none
      | some ts => some (t :: ts)

/-- The client-line branch of `initialize`: the client name is the first word, `ptr`
is moved past the first space (`strchr`), and the transactions are parsed from
there; without a space `ptr` is null and no transaction is read.  `none` when the
name does not fit `client_name`, a round of the loop is `outside`, or more than
`MAX_NUMBER_OF_CLIENT_TRANSACTIONS` transactions are stored. -/
def parse_client (line : List Char) : Option ClientOperation :=
  match scan_s line with
  | none => none
  | some (name, _) =>
    if fits name then
      match line.dropWhile (fun c => c != ' ') with
      | [] => some ⟨name, []⟩
      | _ :: ptr =>
        match parse_transactions ptr.length ptr with
        | none => none
        | some ts => if ts.length ≤ 50 then some ⟨name, ts⟩ else none
    else none

/-- Globals that `initialize` sets up. -/
structure Setup where
  number_of_accounts : Nat
  number_of_clients : Nat
  accounts : List BankAccount
  client_operations : List ClientOperation
  deriving DecidableEq, Repr

/-- State of the second pass of `initialize`: the local `balance`, which keeps its
value from one line to the next and is `none` as long as nothing was assigned to it,
and the entries written so far. -/
structure Pass where
  balance : Option Int
  accounts : List BankAccount
  client_operations : List ClientOperation

/-- One round of the second `while (fgets ...)` loop of `initialize`: the tests
`line[0] == 'A'` and `line[0] == 'C'` and their branches.  `none` when the name does
not fit `account_name`, the number is not an `int`, the balance that is stored was
never assigned, or the client line is outside the model. -/
def second_pass_line (st : Pass) (line : List Char) : Option Pass :=
  if line.head? = some 'A' then
    match scan_account line with
    | (none, _) => none
    | (some name, v) =>
      if fits name then
        match (if v.isSome then v else st.balance) with
        | none => none
        | some b =>
          if in_int b then
            some { balance := some b
                   accounts := st.accounts ++ [⟨name, b⟩]
                   client_operations := st.client_operations }
          else none
      else none
  else if line.head? = some 'C' then
    match parse_client line with
    | none => none
    | some op => some { st with client_operations := st.client_operations ++ [op] }
  else some st

/-- The second pass of `initialize` over all lines. -/
def second_pass : Pass → List (List Char) → Option Pass
  | st, [] => some st
  | st, line :: lines =>
    match second_pass_line st line with
    | none => none
    | some st2 => second_pass st2 lines

/-- The first pass of `initialize`: counts the lines whose first character, which
`sscanf(line, "%c", &identifier)` reads, is `c`. -/
def count_lines (c : Char) (lines : List (List Char)) : Nat :=
  (lines.filter (fun l => l.head? = some c)).length

/-- Result of `initialize`. -/
inductive Init
  /-- The call `fopen` failed: `exit(EXIT_FAILURE)`. -/
  | exit_failure
  /-- The input is one that this model does not describe: a byte that is NUL or not
  ASCII, or a run in which the C code leaves defined behaviour (a word longer than
  its buffer, a number that is not an `int`, more transactions than the array
  holds, a balance read before it was assigned). -/
  | outside
  /-- The globals are set up. -/
  | ok (setup : Setup)
  deriving DecidableEq, Repr

/-- The function `initialize` (a reserved word of Lean, hence the longer name).  `file`
is the content of the input file, `none` when `fopen` fails. -/
def initialize_bank (file : Option String) : Init :=
  match file with
  | none => .exit_failure
  | some content =>
    if content.toList.all plain then
      match second_pass ⟨none, [], []⟩ (read_lines content.length content.toList) with
      | none => .outside
      | some st =>
        .ok { number_of_accounts := count_lines 'A' (read_lines content.length content.toList)
              number_of_clients := count_lines 'C' (read_lines content.length content.toList)
              accounts := st.accounts
              client_operations := st.client_operations }
    else .outside
/-! ### Writing an input file

The text of an input file for given accounts and client operations, in the format
that `initialize` reads: one line `name balance n` per account, then one line
`name type account n type account n ...` per client. -/

/-- Decimal numeral of a natural number. -/
def render_nat (n : Nat) : List Char :=
  if n = 0 then ['0']
  else (Nat.digits 10 n).reverse.map (fun d => Char.ofNat (48 + d))

/-- Decimal numeral of an integer, with `-` for a negative one. -/
def render_int (v : Int) : List Char :=
  if v < 0 then '-' :: render_nat v.natAbs else render_nat v.natAbs

/-- The line of an account. -/
def render_account (a : BankAccount) : List Char :=
  a.account_name.toList ++ (" balance ".toList ++ (render_int a.balance ++ ['\n']))

/-- The three words of a transaction, after a space. -/
def render_transaction (t : Transaction) : List Char :=
  ' ' :: (t.type.toList ++ ' ' :: (t.account_name.toList ++ ' ' :: render_int t.amount))

/-- The words of a list of transactions and the end of the line. -/
def render_transactions : List Transaction → List Char
  | [] => ['\n']
  | t :: ts => render_transaction t ++ render_transactions ts

/-- The line of a client operation. -/
def render_client (c : ClientOperation) : List Char :=
  c.client_name.toList ++ render_transactions c.transactions

/-- The input file: the account lines, then the client lines. -/
def render_file (accounts : List BankAccount) (clients : List ClientOperation) : String :=
  String.mk ((accounts.map render_account).flatten ++ (clients.map render_client).flatten)

/-- A word that `%s` reads back whole into a `char[10]`: 1 to 9 printable ASCII
characters, none of them a space. -/
def word_ok (w : String) : Bool :=
  decide (1 ≤ w.length) && decide (w.length ≤ 9) &&
    w.toList.all (fun c => decide (33 ≤ c.toNat) && decide (c.toNat ≤ 126))

/-- An account that an input line can describe: its name is a word that starts
with `A`, its balance an `int`. -/
def account_ok (a : BankAccount) : Bool :=
  word_ok a.account_name && decide (a.account_name.toList.head? = some 'A') &&
    in_int a.balance

/-- A transaction that an input line can describe: two words and an `int`. -/
def transaction_ok (t : Transaction) : Bool :=
  word_ok t.type && word_ok t.account_name && in_int t.amount

/-- A client operation that an input line can describe: its name is a word that
starts with `C`, and its line fits the buffer `char line[200]`. -/
def client_ok (c : ClientOperation) : Bool :=
  word_ok c.client_name && decide (c.client_name.toList.head? = some 'C') &&
    c.transactions.all transaction_ok && decide ((render_client c).length ≤ 199)

/-- A line as `fgets` returns it whole: it ends at its only newline and fits the
buffer `char line[200]`. -/
def line_ok (l : List Char) : Prop :=
  ∃ body, l = body ++ ['\n'] ∧ '\n' ∉ body ∧ body.length ≤ 198

/-- The text of a transaction without its leading space, followed by `R`. -/
def ptr_of (t : Transaction) (R : List Char) : List Char :=
  t.type.toList ++ (' ' :: (t.account_name.toList ++ (' ' :: (render_int t.amount ++ R))))

/-- A rendered line: text without a newline, then the newline. -/
def text_line (l : List Char) : Prop :=
  ∃ body, l = body ++ ['\n'] ∧ body.length ≤ 198 ∧
    ∀ c ∈ body, c = ' ' ∨ (33 ≤ c.toNat ∧ c.toNat ≤ 126)

/-- The lines of the rendered file. -/
def render_lines (accounts : List BankAccount) (clients : List ClientOperation) :
    List (List Char) :=
  accounts.map render_account ++ clients.map render_client

/-- What `main` prints: the two counters and, for every account by increasing index,
its name and balance. -/
structure Output where
  number_of_accounts : Nat
  number_of_clients : Nat
  balances : List (String × Int)
  deriving DecidableEq, Repr

/-- How a run of the program ends. -/
inductive Outcome
  /-- The function `initialize` could not open the input file: `exit(EXIT_FAILURE)`. -/
  | exit_failure
  /-- A call of `pthread_create` failed: "Error creating thread", `return 1`. -/
  | thread_error
  /-- All threads were joined and the report was printed: `EXIT_SUCCESS`. -/
  | report (out : Output)
  deriving DecidableEq, Repr

/-- The function `main`: `initialize`, one thread per client operation, `pthread_join`
of all of them, then the report.  `create_error` is the index of the first client
whose `pthread_create` fails, `none` when all succeed.  The result lists every
outcome that the run can have: one report for every order in which the transactions
of the client operations that `initialize` has parsed can take effect while each
client keeps its own order.  It is empty, and says nothing about the program, where
`initialize` is `outside` and where there is no client: the array
`pthread_t threads[number_of_clients]` then has length zero, which ISO C does not
define. -/
def main (file : Option String) (create_error : Option Nat) : List Outcome :=
  match initialize_bank file with
  | .exit_failure => [.exit_failure]
  | .outside => []
  | .ok setup =>
    if setup.number_of_clients = 0 then []
    else if (match create_error with
        | some i => decide (i < setup.number_of_clients)
        | none => false) then [.thread_error]
    else
      (interleavings (setup.client_operations.map (fun op => op.transactions)).flatten.length
          (setup.client_operations.map (fun op => op.transactions))).map
        (fun schedule => .report
          { number_of_accounts := setup.number_of_accounts
            number_of_clients := setup.number_of_clients
            balances := report (run_schedule_int setup.accounts schedule) })

/-! ### Threads and mutexes

A small-step model of `client_thread` and `process_transaction` as the client
threads run them: every step is one access to shared memory (a comparison of
account names, a mutex operation, one read or one write of a balance), and the
scheduler may pick any thread for the next step.  `pthread_mutex_lock` can only be
taken by a thread when the mutex is free. -/

/-- Control points of a client thread inside `process_transaction`; `scan 0` is also
the point of `client_thread` between two calls. -/
inductive Pc
  /-- Loop test `i < number_of_accounts` and `strcmp` of the two account names. -/
  | scan (i : Nat)
  /-- Before `pthread_mutex_lock(&accounts[i].mutex)`. -/
  | lock (i : Nat)
  /-- Mutex held, before the tests of `transaction->type` and the first read of the
  balance (`balance += amount`, or the test `balance >= amount`). -/
  | locked (i : Nat)
  /-- Mutex held, the test `balance >= amount` passed: before the read of
  `accounts[i].balance -= amount`. -/
  | sub (i : Nat)
  /-- Mutex held, before the write of the new balance `v`. -/
  | store (i : Nat) (v : Int)
  /-- Before `pthread_mutex_unlock(&accounts[i].mutex)`, `break` and the return. -/
  | unlock (i : Nat)
  deriving DecidableEq, Repr

/-- Index of the account whose mutex a thread at this control point holds. -/
def Pc.held : Pc → Option Nat
  | .scan _ => none
  | .lock _ => none
  | .locked i => some i
  | .sub i => some i
  | .store i _ => some i
  | .unlock i => some i

/-- Number of steps a thread at this control point still takes before its mutex is
released, at most; `0` where it holds none. -/
def Pc.rank : Pc → Nat
  | .scan _ => 0
  | .lock _ => 0
  | .locked _ => 4
  | .sub _ => 3
  | .store _ _ => 2
  | .unlock _ => 1

/-- One client thread: the transactions it has not finished (the head is the one
in progress) and its control point. -/
structure Thread where
  transactions : List Transaction
  pc : Pc
  deriving DecidableEq, Repr

/-- Shared memory and threads: `mutexes[i]` is the owner of `accounts[i].mutex`,
`none` when it is free. -/
structure World where
  accounts : List BankAccount
  mutexes : List (Option Nat)
  threads : List Thread
  deriving DecidableEq, Repr

/-- What a step does to the shared account `i`. -/
inductive Action
  | lock (i : Nat)
  | read (i : Nat)
  | write (i : Nat)
  | unlock (i : Nat)
  deriving DecidableEq, Repr

/-- One step of thread `tid`; `none` when the thread does not exist, has finished, or
waits for a mutex that another thread owns. -/
def step (w : World) (tid : Nat) : Option (Option Action × World) :=
  match w.threads[tid]? with
  | none => none
  | some th =>
    match th.transactions with
    | [] => none
    | t :: rest =>
      match th.pc with
      | .scan i =>
        match w.accounts[i]? with
        | none => some (none, { w with threads := w.threads.set tid ⟨rest, .scan 0⟩ })
        | some a =>
          if a.account_name = t.account_name then
            some (none, { w with threads := w.threads.set tid ⟨t :: rest, .lock i⟩ })
          else
            some (none, { w with threads := w.threads.set tid ⟨t :: rest, .scan (i + 1)⟩ })
      | .lock i =>
        match w.mutexes[i]? with
        | some none =>
          some (some (.lock i),
            { w with mutexes := w.mutexes.set i (some tid)
                     threads := w.threads.set tid ⟨t :: rest, .locked i⟩ })
        | _ => none
      | .locked i =>
        match w.accounts[i]? with
        | none => none
        | some a =>
          if t.type = "deposit" then
            some (some (.read i),
              { w with threads := w.threads.set tid ⟨t :: rest, .store i (a.balance + t.amount)⟩ })
          else if t.type = "withdraw" then
            if a.balance ≥ t.amount then
              some (some (.read i), { w with threads := w.threads.set tid ⟨t :: rest, .sub i⟩ })
            else
              some (some (.read i), { w with threads := w.threads.set tid ⟨t :: rest, .unlock i⟩ })
          else
            some (none, { w with threads := w.threads.set tid ⟨t :: rest, .unlock i⟩ })
      | .sub i =>
        match w.accounts[i]? with
        | none => none
        | some a =>
          some (some (.read i),
            { w with threads := w.threads.set tid ⟨t :: rest, .store i (a.balance - t.amount)⟩ })
      | .store i v =>
        match w.accounts[i]? with
        | none => none
        | some a =>
          some (some (.write i),
            { w with accounts := w.accounts.set i { a with balance := v }
                     threads := w.threads.set tid ⟨t :: rest, .unlock i⟩ })
      | .unlock i =>
        some (some (.unlock i),
          { w with mutexes := w.mutexes.set i none
                   threads := w.threads.set tid ⟨rest, .scan 0⟩ })

/-- State in which `main` starts the client threads. -/
def start (accounts : List BankAccount) (clients : List (List Transaction)) : World :=
  { accounts := accounts
    mutexes := List.replicate accounts.length none
    threads := clients.map (fun ts => ⟨ts, .scan 0⟩) }

/-- State after the scheduler has picked the threads of `sched` one after the other;
picking a thread that cannot move changes nothing. -/
def run (w : World) : List Nat → World
  | [] => w
  | tid :: sched =>
    match step w tid with
    | some (_, w2) => run w2 sched
    | none => run w sched


/-- Bound on the number of steps a thread still takes, with `n` accounts: at most
`n + 1` loop tests, then `lock`, the tests under the lock, up to two more balance
accesses and `unlock` for the transaction in progress, and `n + 7` steps for every
later transaction. -/
def Thread.work (n : Nat) (th : Thread) : Nat :=
  match th.transactions with
  | [] => 0
  | _ :: rest =>
    (match th.pc with
      | .scan i => n - i + 6
      | .lock _ => 5
      | .locked _ => 4
      | .sub _ => 3
      | .store _ _ => 2
      | .unlock _ => 1) + rest.length * (n + 7)

/-- Bound on the number of steps all threads together still take. -/
def World.work (w : World) : Nat :=
  (w.threads.map (Thread.work w.accounts.length)).sum

/-- State that the threads of `main` reach under the scheduler choices `sched`. -/
def reached (accounts : List BankAccount) (clients : List (List Transaction))
    (sched : List Nat) : World :=
  run (start accounts clients) sched

/-- Invariant of the locking discipline. -/
structure Inv (w : World) : Prop where
  len : w.mutexes.length = w.accounts.length
  owner : ∀ (tid : Nat) (th : Thread) (i : Nat), w.threads[tid]? = some th →
    th.pc.held = some i →
    w.mutexes[i]? = some (some tid)
  owned : ∀ (i tid : Nat), w.mutexes[i]? = some (some tid) →
    ∃ th : Thread, w.threads[tid]? = some th ∧ th.pc.held = some i
  finished : ∀ (tid : Nat) (th : Thread), w.threads[tid]? = some th →
    th.transactions = [] → th.pc = .scan 0

/-- Transactions of a thread whose effect on the ledger is still to come: at
`unlock` the transaction in progress has already had its effect. -/
def Thread.todo (th : Thread) : List Transaction :=
  match th.pc with
  | .unlock _ => th.transactions.tail
  | _ => th.transactions

/-- What a thread at its control point knows about the account table: the accounts
it has passed in the loop have another name, the index it settled on is the first
match, and a value it is about to write is the one `apply_transaction` gives for the
current balance. -/
def Thread.ok (accounts : List BankAccount) (th : Thread) : Prop :=
  match th.transactions with
  | [] => True
  | t :: _ =>
    match th.pc with
    | .scan i => ∀ j b, j < i → accounts[j]? = some b → b.account_name ≠ t.account_name
    | .lock i => first_match accounts t.account_name i
    | .locked i => first_match accounts t.account_name i
    | .sub i => first_match accounts t.account_name i ∧ t.type = "withdraw" ∧
        ∃ a, accounts[i]? = some a ∧ a.balance ≥ t.amount
    | .store i v => first_match accounts t.account_name i ∧
        ∃ a, accounts[i]? = some a ∧ apply_transaction a t = { a with balance := v }
    | .unlock _ => True

/-- Link between a state of the threads and the ledger of whole transactions: the
accounts are those that `run_schedule` gives for the transactions `h` that have had
their effect so far, in that order, and `h` followed by any interleaving of what the
threads still have to do is an interleaving of the clients' lists. -/
structure Good (accounts0 : List BankAccount) (clients0 : List (List Transaction))
    (w : World) (h : List Transaction) : Prop where
  inv : Inv w
  ledger : w.accounts = run_schedule accounts0 h
  order : ∀ s, Interleaving (w.threads.map Thread.todo) s → Interleaving clients0 (h ++ s)
  threads_ok : ∀ (tid : Nat) (th : Thread), w.threads[tid]? = some th → th.ok w.accounts

end Bank

/-! ## Basic facts about `process_transaction` -/

namespace Bank

theorem set_same {α : Type} {l : List α} {i : Nat} {a : α} (h : l[i]? = some a) :
    l.set i a = l := by
  induction l generalizing i with
  | nil => rfl
  | cons b rest ih =>
    cases i with
    | zero =>
      simp at h
      simp [h]
    | succ n =>
      have h2 : rest[n]? = some a := by simpa using h
      simp [ih h2]

theorem apply_transaction_name (a : BankAccount) (t : Transaction) :
    (apply_transaction a t).account_name = a.account_name := by
  unfold apply_transaction
  split_ifs <;> rfl

theorem process_transaction_names (accounts : List BankAccount) (t : Transaction) :
    (process_transaction accounts t).map (fun a => a.account_name)
      = accounts.map (fun a => a.account_name) := by
  induction accounts with
  | nil => rfl
  | cons a rest ih =>
    unfold process_transaction
    split_ifs with h
    · simp [apply_transaction_name]
    · simp [ih]

theorem process_transaction_length (accounts : List BankAccount) (t : Transaction) :
    (process_transaction accounts t).length = accounts.length := by
  have h := congrArg List.length (process_transaction_names accounts t)
  simpa using h

theorem process_transaction_no_match (accounts : List BankAccount) (t : Transaction)
    (h : ∀ a ∈ accounts, a.account_name ≠ t.account_name) :
    process_transaction accounts t = accounts := by
  induction accounts with
  | nil => rfl
  | cons a rest ih =>
    have ha : a.account_name ≠ t.account_name := h a (List.mem_cons_self _ _)
    have hr : ∀ b ∈ rest, b.account_name ≠ t.account_name :=
      fun b hb => h b (List.mem_cons_of_mem _ hb)
    simp [process_transaction, ha, ih hr]

theorem process_transaction_first_match (accounts : List BankAccount) (t : Transaction)
    (i : Nat) (a : BankAccount) (hi : accounts[i]? = some a)
    (hname : a.account_name = t.account_name)
    (hfirst : ∀ j b, j < i → accounts[j]? = some b → b.account_name ≠ t.account_name) :
    process_transaction accounts t = accounts.set i (apply_transaction a t) := by
  induction accounts generalizing i with
  | nil => simp at hi
  | cons b rest ih =>
    cases i with
    | zero =>
      simp at hi
      subst hi
      simp [process_transaction, hname]
    | succ n =>
      have hb : b.account_name ≠ t.account_name := hfirst 0 b (Nat.succ_pos n) (by simp)
      have hi2 : rest[n]? = some a := by simpa using hi
      have hf : ∀ j c, j < n → rest[j]? = some c → c.account_name ≠ t.account_name := by
        intro j c hj hc
        exact hfirst (j + 1) c (Nat.succ_lt_succ hj) (by simpa using hc)
      simp [process_transaction, hb, ih n hi2 hf]

theorem process_transaction_other (accounts : List BankAccount) (t : Transaction)
    (j : Nat) (h : ¬ first_match accounts t.account_name j) :
    (process_transaction accounts t)[j]? = accounts[j]? := by
  induction accounts generalizing j with
  | nil => rfl
  | cons b rest ih =>
    unfold process_transaction
    split_ifs with hb
    · cases j with
      | zero =>
        exfalso
        apply h
        refine ⟨⟨b, by simp, hb⟩, ?_⟩
        intro j c hj
        exact absurd hj (Nat.not_lt_zero j)
      | succ n => simp
    · cases j with
      | zero => simp
      | succ n =>
        simp only [List.getElem?_cons_succ]
        apply ih
        intro hfm
        apply h
        obtain ⟨⟨a, ha, hn⟩, hf⟩ := hfm
        refine ⟨⟨a, by simpa using ha, hn⟩, ?_⟩
        intro k c hk hc
        cases k with
        | zero =>
          simp at hc
          subst hc
          exact hb
        | succ m =>
          exact hf m c (Nat.lt_of_succ_lt_succ hk) (by simpa using hc)

end Bank

/-! ## Sequences of calls -/

namespace Bank

theorem run_schedule_names (accounts : List BankAccount) (schedule : List Transaction) :
    (run_schedule accounts schedule).map (fun a => a.account_name)
      = accounts.map (fun a => a.account_name) := by
  induction schedule generalizing accounts with
  | nil => rfl
  | cons t ts ih =>
    show (run_schedule (process_transaction accounts t) ts).map _ = _
    rw [ih, process_transaction_names]

theorem run_schedule_append (accounts : List BankAccount) (xs ys : List Transaction) :
    run_schedule accounts (xs ++ ys) = run_schedule (run_schedule accounts xs) ys := by
  simp [run_schedule, List.foldl_append]

theorem names_absent_of_map_eq {l l2 : List BankAccount} {name : String}
    (hmap : l2.map (fun a => a.account_name) = l.map (fun a => a.account_name))
    (h : ∀ a ∈ l, a.account_name ≠ name) : ∀ a ∈ l2, a.account_name ≠ name := by
  intro a ha hn
  have hmem : a.account_name ∈ l2.map (fun a => a.account_name) :=
    List.mem_map_of_mem _ ha
  rw [hmap] at hmem
  obtain ⟨b, hb, hbn⟩ := List.mem_map.mp hmem
  exact h b hb (hbn.trans hn)

theorem apply_transaction_nonneg (a : BankAccount) (t : Transaction)
    (ha : 0 ≤ a.balance) (ht : 0 ≤ t.amount) : 0 ≤ (apply_transaction a t).balance := by
  unfold apply_transaction
  split_ifs with h1 h2 h3
  · exact Int.add_nonneg ha ht
  · show 0 ≤ a.balance - t.amount
    omega
  · exact ha
  · exact ha

theorem apply_transaction_deposit (a : BankAccount) (t : Transaction)
    (htype : t.type = "deposit") :
    apply_transaction a t = { a with balance := a.balance + t.amount } := by
  unfold apply_transaction
  rw [if_pos htype]

theorem apply_transaction_withdraw (a : BankAccount) (t : Transaction)
    (htype : t.type = "withdraw") :
    apply_transaction a t
      = if a.balance ≥ t.amount then { a with balance := a.balance - t.amount } else a := by
  have hnd : ¬ t.type = "deposit" := by rw [htype]; decide
  unfold apply_transaction
  rw [if_neg hnd, if_pos htype]

theorem process_transaction_nonneg (accounts : List BankAccount) (t : Transaction)
    (h0 : ∀ a ∈ accounts, 0 ≤ a.balance) (ht : 0 ≤ t.amount) :
    ∀ a ∈ process_transaction accounts t, 0 ≤ a.balance := by
  induction accounts with
  | nil => intro a ha; simp [process_transaction] at ha
  | cons b rest ih =>
    have hb : 0 ≤ b.balance := h0 b (List.mem_cons_self _ _)
    have hr : ∀ a ∈ rest, 0 ≤ a.balance := fun a ha => h0 a (List.mem_cons_of_mem _ ha)
    intro a ha
    unfold process_transaction at ha
    split_ifs at ha with hm
    · rcases List.mem_cons.mp ha with rfl | hin
      · exact apply_transaction_nonneg b t hb ht
      · exact hr a hin
    · rcases List.mem_cons.mp ha with rfl | hin
      · exact hb
      · exact ih hr a hin

theorem run_schedule_nonneg (accounts : List BankAccount) (ts : List Transaction)
    (h0 : ∀ a ∈ accounts, 0 ≤ a.balance) (hts : ∀ t ∈ ts, 0 ≤ t.amount) :
    ∀ a ∈ run_schedule accounts ts, 0 ≤ a.balance := by
  induction ts generalizing accounts with
  | nil => exact h0
  | cons t ts ih =>
    show ∀ a ∈ run_schedule (process_transaction accounts t) ts, 0 ≤ a.balance
    apply ih
    · exact process_transaction_nonneg accounts t h0 (hts t (List.mem_cons_self _ _))
    · exact fun u hu => hts u (List.mem_cons_of_mem _ hu)

theorem process_transaction_comm (accounts : List BankAccount) (t1 t2 : Transaction)
    (h : t1.account_name ≠ t2.account_name) :
    process_transaction (process_transaction accounts t1) t2
      = process_transaction (process_transaction accounts t2) t1 := by
  induction accounts with
  | nil => rfl
  | cons a rest ih =>
    by_cases h1 : a.account_name = t1.account_name
    · have h2 : a.account_name ≠ t2.account_name := fun e => h (h1.symm.trans e)
      simp only [process_transaction, if_pos h1, if_neg h2, apply_transaction_name]
    · by_cases h2 : a.account_name = t2.account_name
      · simp only [process_transaction, if_neg h1, if_pos h2, apply_transaction_name]
      · simp only [process_transaction, if_neg h1, if_neg h2, ih]

theorem first_match_of_names {l l2 : List BankAccount} {name : String} {k : Nat}
    (hmap : l2.map (fun a => a.account_name) = l.map (fun a => a.account_name))
    (h : first_match l2 name k) : first_match l name k := by
  have hpt : ∀ j : Nat, Option.map (fun a : BankAccount => a.account_name) l2[j]?
      = Option.map (fun a : BankAccount => a.account_name) l[j]? := by
    intro j
    rw [← List.getElem?_map, ← List.getElem?_map, hmap]
  obtain ⟨⟨a, ha, han⟩, hf⟩ := h
  constructor
  · have := hpt k
    rw [ha] at this
    cases hl : l[k]? with
    | none => simp [hl] at this
    | some b =>
      rw [hl] at this
      simp at this
      exact ⟨b, rfl, this.symm.trans han⟩
  · intro j b hj hb
    have := hpt j
    rw [hb] at this
    cases hl : l2[j]? with
    | none => simp [hl] at this
    | some c =>
      rw [hl] at this
      simp at this
      rw [← this]
      exact hf j c hj hl

theorem process_then_other (accounts : List BankAccount) (t1 t2 : Transaction)
    (h : t1.account_name ≠ t2.account_name) (i : Nat) (a : BankAccount)
    (hi : accounts[i]? = some a) (hfm : first_match accounts t1.account_name i) :
    (process_transaction (process_transaction accounts t1) t2)[i]?
      = some (apply_transaction a t1) := by
  obtain ⟨⟨a2, ha2, hname⟩, hfirst⟩ := hfm
  rw [hi] at ha2
  cases ha2
  have hlt : i < accounts.length := by
    rcases Nat.lt_or_ge i accounts.length with h1 | h1
    · exact h1
    · rw [List.getElem?_eq_none h1] at hi
      cases hi
  have h1 : (process_transaction accounts t1)[i]? = some (apply_transaction a t1) := by
    rw [process_transaction_first_match accounts t1 i a hi hname hfirst]
    simp [hlt]
  rw [process_transaction_other _ t2 i, h1]
  intro hf
  obtain ⟨⟨b, hb, hbn⟩, -⟩ := hf
  rw [h1] at hb
  cases hb
  rw [apply_transaction_name] at hbn
  exact h (hname.symm.trans hbn)

end Bank

/-! ## Interleavings -/

namespace Bank

theorem flatten_set_split {clients : List (List Transaction)} {k : Nat} {t : Transaction}
    {rest : List Transaction} (h : clients[k]? = some (t :: rest)) :
    ∃ pre post, clients.flatten = pre ++ t :: post ∧
      (clients.set k rest).flatten = pre ++ post := by
  induction clients generalizing k with
  | nil => simp at h
  | cons c cs ih =>
    cases k with
    | zero =>
      simp at h
      subst h
      exact ⟨[], rest ++ cs.flatten, by simp, by simp⟩
    | succ n =>
      have h2 : cs[n]? = some (t :: rest) := by simpa using h
      obtain ⟨pre, post, h3, h4⟩ := ih h2
      exact ⟨c ++ pre, post, by simp [h3], by simp [h4]⟩

theorem Interleaving.perm {clients : List (List Transaction)} {schedule : List Transaction}
    (h : Interleaving clients schedule) : schedule.Perm clients.flatten := by
  induction h with
  | done hall =>
    rename_i cl
    have hnil : cl.flatten = [] := by
      induction cl with
      | nil => rfl
      | cons c cs ih =>
        have hc : c = [] := hall c (List.mem_cons_self _ _)
        have hcs := ih (fun d hd => hall d (List.mem_cons_of_mem _ hd))
        simp [hc, hcs]
    rw [hnil]
  | step hk _ ih =>
    obtain ⟨pre, post, h1, h2⟩ := flatten_set_split hk
    rw [h1]
    rw [h2] at ih
    exact (List.Perm.cons _ ih).trans List.perm_middle.symm

theorem Interleaving.cons_nil {clients : List (List Transaction)}
    {schedule : List Transaction} (h : Interleaving clients schedule) :
    Interleaving ([] :: clients) schedule := by
  induction h with
  | done hall =>
    apply Interleaving.done
    intro c hc
    rcases List.mem_cons.mp hc with rfl | hin
    · rfl
    · exact hall c hin
  | @step cl k t rest sched hk _ ih =>
    have hk2 : ([] :: cl)[k + 1]? = some (t :: rest) := by simpa using hk
    exact Interleaving.step hk2 (by simpa using ih)

theorem Interleaving.sequential (clients : List (List Transaction)) :
    Interleaving clients clients.flatten := by
  induction clients with
  | nil => exact Interleaving.done (by simp)
  | cons c cs ih =>
    induction c with
    | nil => simpa using ih.cons_nil
    | cons t r ihc =>
      have h0 : ((t :: r) :: cs)[0]? = some (t :: r) := by simp
      exact Interleaving.step h0 (by simpa using ihc)

theorem all_isEmpty_iff (clients : List (List Transaction)) :
    clients.all List.isEmpty = true ↔ ∀ c ∈ clients, c = [] := by
  simp [List.all_eq_true, List.isEmpty_iff]

theorem Interleaving.mem_interleavings {clients : List (List Transaction)}
    {schedule : List Transaction} (h : Interleaving clients schedule) :
    ∀ n, schedule.length ≤ n → schedule ∈ interleavings n clients := by
  induction h with
  | @done cl hall =>
    intro n _
    have he := (all_isEmpty_iff cl).mpr hall
    cases n with
    | zero => simp [interleavings, he]
    | succ m => simp [interleavings, he]
  | @step cl k t rest sched hk _ ih =>
    intro n hn
    cases n with
    | zero => simp at hn
    | succ m =>
      have hm : sched.length ≤ m := by simpa using hn
      have hlt : k < cl.length := by
        rcases Nat.lt_or_ge k cl.length with h | h
        · exact h
        · rw [List.getElem?_eq_none h] at hk
          cases hk
      unfold interleavings
      apply List.mem_append_right
      rw [List.mem_flatMap]
      refine ⟨k, List.mem_range.mpr hlt, ?_⟩
      rw [hk]
      exact List.mem_map_of_mem _ (ih m hm)

theorem interleavings_sound (n : Nat) :
    ∀ (clients : List (List Transaction)) (schedule : List Transaction),
      schedule ∈ interleavings n clients → Interleaving clients schedule := by
  induction n with
  | zero =>
    intro clients schedule h
    unfold interleavings at h
    split_ifs at h with he
    · simp at h
      subst h
      exact Interleaving.done ((all_isEmpty_iff clients).mp he)
    · simp at h
  | succ m ih =>
    intro clients schedule h
    unfold interleavings at h
    rcases List.mem_append.mp h with h1 | h2
    · split_ifs at h1 with he
      · simp at h1
        subst h1
        exact Interleaving.done ((all_isEmpty_iff clients).mp he)
      · simp at h1
    · obtain ⟨k, _, hk⟩ := List.mem_flatMap.mp h2
      rcases hc : clients[k]? with _ | c
      · rw [hc] at hk
        simp at hk
      · cases c with
        | nil =>
          rw [hc] at hk
          simp at hk
        | cons t rest =>
          rw [hc] at hk
          obtain ⟨s2, hs2, rfl⟩ := List.mem_map.mp hk
          exact Interleaving.step hc (ih _ _ hs2)

theorem amount_to_perm {name : String} {xs ys : List Transaction} (h : xs.Perm ys) :
    amount_to name xs = amount_to name ys := by
  unfold amount_to
  exact ((h.filter _).map _).sum_eq

theorem amount_to_cons (name : String) (t : Transaction) (ts : List Transaction) :
    amount_to name (t :: ts)
      = (if t.account_name = name then t.amount else 0) + amount_to name ts := by
  unfold amount_to
  by_cases h : t.account_name = name
  · simp [List.filter_cons, h]
  · simp [List.filter_cons, h]

theorem flatten_replicate_singleton (n : Nat) (t : Transaction) :
    (List.replicate n [t]).flatten = List.replicate n t := by
  induction n with
  | zero => rfl
  | succ m ih => simp [List.replicate_succ, ih]

theorem amount_to_replicate (name : String) (n : Nat) (t : Transaction)
    (h : t.account_name = name) :
    amount_to name (List.replicate n t) = n * t.amount := by
  induction n with
  | zero => simp [amount_to]
  | succ m ih =>
    rw [List.replicate_succ, amount_to_cons, ih, if_pos h]
    push_cast
    ring

theorem deposit_step (accounts : List BankAccount) (t : Transaction)
    (hnodup : (accounts.map (fun a => a.account_name)).Nodup)
    (htype : t.type = "deposit") (i : Nat) (a : BankAccount)
    (hi : accounts[i]? = some a) :
    (process_transaction accounts t)[i]?
      = some { a with balance := a.balance
          + (if t.account_name = a.account_name then t.amount else 0) } := by
  induction accounts generalizing i with
  | nil => simp at hi
  | cons b rest ih =>
    have hnd := List.nodup_cons.mp hnodup
    by_cases hb : b.account_name = t.account_name
    · simp only [process_transaction, if_pos hb]
      cases i with
      | zero =>
        simp at hi
        subst hi
        simp [apply_transaction_deposit _ _ htype, hb]
      | succ n =>
        have hi2 : rest[n]? = some a := by simpa using hi
        have hmem : a ∈ rest := List.getElem?_mem hi2
        have hne : ¬ t.account_name = a.account_name := by
          intro e
          apply hnd.1
          show b.account_name ∈ _
          rw [hb, e]
          exact List.mem_map_of_mem (fun a => a.account_name) hmem
        simp [hi2, hne]
    · simp only [process_transaction, if_neg hb]
      cases i with
      | zero =>
        simp at hi
        subst hi
        have hne : ¬ t.account_name = b.account_name := fun e => hb e.symm
        simp [hne]
      | succ n =>
        have hi2 : rest[n]? = some a := by simpa using hi
        simpa using ih hnd.2 n hi2

theorem deposits_run (accounts : List BankAccount) (schedule : List Transaction)
    (hnodup : (accounts.map (fun a => a.account_name)).Nodup)
    (hdep : ∀ t ∈ schedule, t.type = "deposit") (i : Nat) (a : BankAccount)
    (hi : accounts[i]? = some a) :
    (run_schedule accounts schedule)[i]?
      = some { a with balance := a.balance + amount_to a.account_name schedule } := by
  induction schedule generalizing accounts a with
  | nil => simpa [run_schedule, amount_to] using hi
  | cons t ts ih =>
    show (run_schedule (process_transaction accounts t) ts)[i]? = _
    have hstep := deposit_step accounts t hnodup (hdep t (List.mem_cons_self _ _)) i a hi
    have hnodup2 : ((process_transaction accounts t).map (fun a => a.account_name)).Nodup := by
      rw [process_transaction_names]
      exact hnodup
    rw [ih (process_transaction accounts t) hnodup2
      (fun u hu => hdep u (List.mem_cons_of_mem _ hu)) _ hstep]
    rw [amount_to_cons]
    simp only [eq_comm, Int.add_assoc]

theorem conservation (accounts : List BankAccount) (clients : List (List Transaction))
    (schedule : List Transaction)
    (hnodup : (accounts.map (fun a => a.account_name)).Nodup)
    (hdep : ∀ c ∈ clients, ∀ t ∈ c, t.type = "deposit")
    (hint : Interleaving clients schedule) (i : Nat) (a : BankAccount)
    (hi : accounts[i]? = some a) :
    (run_schedule accounts schedule)[i]?
      = some { a with balance := a.balance + amount_to a.account_name clients.flatten } := by
  have hperm := hint.perm
  have hdep2 : ∀ t ∈ schedule, t.type = "deposit" := by
    intro t ht
    obtain ⟨c, hc, htc⟩ := List.mem_flatten.mp (hperm.mem_iff.mp ht)
    exact hdep c hc t htc
  rw [deposits_run accounts schedule hnodup hdep2 i a hi, amount_to_perm hperm]

end Bank

/-! ## Setup -/

namespace Bank

theorem takeWhile_append_stop {p : Char → Bool} (l r : List Char)
    (hl : ∀ c ∈ l, p c = true) (hr : ∀ c, r.head? = some c → p c = false) :
    (l ++ r).takeWhile p = l := by
  induction l with
  | nil =>
    cases r with
    | nil => rfl
    | cons c r2 => simp [List.takeWhile_cons, hr c rfl]
  | cons a l2 ih =>
    have ha := hl a (List.mem_cons_self _ _)
    simp only [List.cons_append, List.takeWhile_cons, ha, if_true]
    rw [ih (fun c hc => hl c (List.mem_cons_of_mem _ hc))]

theorem dropWhile_append_stop {p : Char → Bool} (l r : List Char)
    (hl : ∀ c ∈ l, p c = true) (hr : ∀ c, r.head? = some c → p c = false) :
    (l ++ r).dropWhile p = r := by
  induction l with
  | nil =>
    cases r with
    | nil => rfl
    | cons c r2 => simp [List.dropWhile_cons, hr c rfl]
  | cons a l2 ih =>
    have ha := hl a (List.mem_cons_self _ _)
    simp only [List.cons_append, List.dropWhile_cons, ha, if_true]
    exact ih (fun c hc => hl c (List.mem_cons_of_mem _ hc))

theorem dropWhile_stop {p : Char → Bool} (r : List Char)
    (hr : ∀ c, r.head? = some c → p c = false) : r.dropWhile p = r := by
  simpa using dropWhile_append_stop [] r (by simp) hr

theorem isspace_toNat {c : Char} (h : isspace c = true) : c.toNat < 33 := by
  simp only [isspace, Bool.or_eq_true, decide_eq_true_eq] at h
  rcases h with ((((h | h) | h) | h) | h) | h <;> subst h <;> decide

theorem isdigit_of_lt (d : Nat) (hd : d < 10) :
    isdigit (Char.ofNat (48 + d)) = true ∧ (Char.ofNat (48 + d)).toNat - 48 = d := by
  interval_cases d <;> exact ⟨by decide, by decide⟩

theorem isdigit_toNat {c : Char} (h : isdigit c = true) : 48 ≤ c.toNat ∧ c.toNat ≤ 57 := by
  simpa [isdigit] using h

theorem digits_value_render_aux (l : List Nat) (hl : ∀ d ∈ l, d < 10) :
    (l.map (fun d => Char.ofNat (48 + d))).foldr (fun c v => 10 * v + (c.toNat - 48)) 0
      = Nat.ofDigits 10 l := by
  induction l with
  | nil => rfl
  | cons d t ih =>
    have hd := (isdigit_of_lt d (hl d (List.mem_cons_self _ _))).2
    simp only [List.map_cons, List.foldr_cons, Nat.ofDigits_cons]
    rw [ih (fun x hx => hl x (List.mem_cons_of_mem _ hx)), hd]
    ring

theorem digits_value_render (n : Nat) : digits_value (render_nat n) = n := by
  unfold render_nat digits_value
  split_ifs with h
  · subst h
    decide
  · rw [List.foldl_map]
    have := digits_value_render_aux (Nat.digits 10 n) (fun d hd => Nat.digits_lt_base (by norm_num) hd)
    rw [List.foldr_map] at this
    rw [List.foldl_reverse]
    rw [this, Nat.ofDigits_digits]

theorem render_nat_digits (n : Nat) : ∀ c ∈ render_nat n, isdigit c = true := by
  unfold render_nat
  split_ifs with h
  · intro c hc
    simp at hc
    subst hc
    decide
  · intro c hc
    simp only [List.mem_map, List.mem_reverse] at hc
    obtain ⟨d, hd, rfl⟩ := hc
    exact (isdigit_of_lt d (Nat.digits_lt_base (by norm_num) hd)).1

theorem render_nat_ne_nil (n : Nat) : render_nat n ≠ [] := by
  unfold render_nat
  split_ifs with h
  · simp
  · simp [Nat.digits_ne_nil_iff_ne_zero, h]

theorem render_nat_length (n : Nat) (hn : n < 10 ^ 10) : (render_nat n).length ≤ 10 := by
  unfold render_nat
  split_ifs with h
  · simp
  · simp only [List.length_map, List.length_reverse]
    rw [Nat.digits_len 10 n (by norm_num) h]
    exact Nat.log_lt_of_lt_pow h hn

theorem not_isspace_of_ge {c : Char} (h : 33 ≤ c.toNat) : isspace c = false := by
  cases hs : isspace c with
  | false => rfl
  | true =>
    have := isspace_toNat hs
    omega

theorem head?_append_of_ne_nil (w r : List Char) (hw : w ≠ []) :
    (w ++ r).head? = w.head? := by
  cases w with
  | nil => exact absurd rfl hw
  | cons c t => rfl

theorem scan_s_word (w r : List Char) (hw : w ≠ [])
    (hsolid : ∀ c ∈ w, 33 ≤ c.toNat)
    (hr : ∀ c, r.head? = some c → isspace c = true) :
    scan_s (w ++ r) = some (String.mk w, r) := by
  have hdrop : (w ++ r).dropWhile isspace = w ++ r := by
    apply dropWhile_stop
    intro c hc
    rw [head?_append_of_ne_nil w r hw] at hc
    exact not_isspace_of_ge (hsolid c (List.mem_of_mem_head? hc))
  have htake : (w ++ r).takeWhile (fun c => !isspace c) = w :=
    takeWhile_append_stop w r (fun c hc => by simp [not_isspace_of_ge (hsolid c hc)])
      (fun c hc => by simp [hr c hc])
  have hrest : (w ++ r).dropWhile (fun c => !isspace c) = r :=
    dropWhile_append_stop w r (fun c hc => by simp [not_isspace_of_ge (hsolid c hc)])
      (fun c hc => by simp [hr c hc])
  unfold scan_s
  rw [hdrop, htake, hrest, if_neg hw]

theorem scan_s_skip (c : Char) (l : List Char) (hc : isspace c = true) :
    scan_s (c :: l) = scan_s l := by
  unfold scan_s
  simp only [List.dropWhile_cons, hc, if_true]

theorem scan_d_skip (c : Char) (l : List Char) (hc : isspace c = true) :
    scan_d (c :: l) = scan_d l := by
  unfold scan_d
  simp only [List.dropWhile_cons, hc, if_true]

theorem render_nat_head (n : Nat) :
    ∃ c t, render_nat n = c :: t ∧ isdigit c = true := by
  cases h : render_nat n with
  | nil => exact absurd h (render_nat_ne_nil n)
  | cons c t =>
    refine ⟨c, t, rfl, ?_⟩
    apply render_nat_digits n
    rw [h]
    exact List.mem_cons_self _ _

theorem scan_d_nat (n : Nat) (r : List Char)
    (hr : ∀ c, r.head? = some c → isdigit c = false) :
    scan_d (render_nat n ++ r) = some ((n : Int), r) := by
  obtain ⟨c, t, hct, hc⟩ := render_nat_head n
  have hcn := isdigit_toNat hc
  have hsp : isspace c = false := not_isspace_of_ge (by omega)
  have hdrop : (render_nat n ++ r).dropWhile isspace = render_nat n ++ r := by
    apply dropWhile_stop
    intro d hd
    rw [hct] at hd
    simp at hd
    subst hd
    exact hsp
  have hhead : (render_nat n ++ r).head? = some c := by rw [hct]; rfl
  have hminus : ¬ (some c = some '-') := by
    intro e
    cases e
    revert hc
    decide
  have hplus : ¬ (some c = some '+') := by
    intro e
    cases e
    revert hc
    decide
  have htake : (render_nat n ++ r).takeWhile isdigit = render_nat n :=
    takeWhile_append_stop _ r (render_nat_digits n) hr
  have hrest : (render_nat n ++ r).dropWhile isdigit = r :=
    dropWhile_append_stop _ r (render_nat_digits n) hr
  unfold scan_d
  simp only [hdrop, hhead, hminus, hplus, or_self, if_false, htake, hrest,
    if_neg (render_nat_ne_nil n), digits_value_render]

theorem scan_d_render (v : Int) (r : List Char)
    (hr : ∀ c, r.head? = some c → isdigit c = false) :
    scan_d (render_int v ++ r) = some (v, r) := by
  unfold render_int
  split_ifs with hv
  · have htake : (render_nat v.natAbs ++ r).takeWhile isdigit = render_nat v.natAbs :=
      takeWhile_append_stop _ r (render_nat_digits _) hr
    have hrest : (render_nat v.natAbs ++ r).dropWhile isdigit = r :=
      dropWhile_append_stop _ r (render_nat_digits _) hr
    have hdrop : ('-' :: render_nat v.natAbs ++ r).dropWhile isspace
        = '-' :: (render_nat v.natAbs ++ r) := by
      apply dropWhile_stop
      intro d hd
      simp at hd
      subst hd
      decide
    have hval : -(v.natAbs : Int) = v := by omega
    unfold scan_d
    rw [hdrop]
    simp only [List.head?_cons, List.tail_cons, true_or, if_true, htake, hrest,
      if_neg (render_nat_ne_nil _), digits_value_render, hval]
  · rw [scan_d_nat _ r hr]
    have : (v.natAbs : Int) = v := by omega
    rw [this]

theorem render_int_ne_nil (v : Int) : render_int v ≠ [] := by
  unfold render_int
  split_ifs
  · simp
  · exact render_nat_ne_nil _

theorem render_int_solid (v : Int) : ∀ c ∈ render_int v, 33 ≤ c.toNat ∧ c.toNat ≤ 126 := by
  have hnat : ∀ n, ∀ c ∈ render_nat n, 33 ≤ c.toNat ∧ c.toNat ≤ 126 := by
    intro n c hc
    have := isdigit_toNat (render_nat_digits n c hc)
    omega
  unfold render_int
  split_ifs
  · intro c hc
    rcases List.mem_cons.mp hc with rfl | h
    · decide
    · exact hnat _ c h
  · exact hnat _

theorem render_int_length (v : Int) (hv : in_int v = true) : (render_int v).length ≤ 11 := by
  simp only [in_int, Bool.and_eq_true, decide_eq_true_eq] at hv
  have hn : v.natAbs < 10 ^ 10 := by
    norm_num
    omega
  have := render_nat_length v.natAbs hn
  unfold render_int
  split_ifs
  · simp only [List.length_cons]
    omega
  · omega

theorem fgets_cons (n : Nat) (c : Char) (cs : List Char) (hc : c ≠ '\n') :
    fgets (n + 1) (c :: cs) = (c :: (fgets n cs).1, (fgets n cs).2) := by
  simp [fgets, hc]

theorem fgets_line (body rest : List Char) (n : Nat) (hb : '\n' ∉ body)
    (hn : body.length < n) :
    fgets n (body ++ '\n' :: rest) = (body ++ ['\n'], rest) := by
  induction body generalizing n with
  | nil =>
    cases n with
    | zero => omega
    | succ m => simp [fgets]
  | cons c t ih =>
    cases n with
    | zero => omega
    | succ m =>
      have hc : c ≠ '\n' := fun e => hb (by simp [e])
      have ht : '\n' ∉ t := fun e => hb (List.mem_cons_of_mem _ e)
      have hm : t.length < m := by simpa using hn
      rw [List.cons_append, fgets_cons m c _ hc, ih m ht hm]
      rfl

theorem read_lines_flatten (ls : List (List Char)) (hls : ∀ l ∈ ls, line_ok l) :
    ∀ fuel, ls.length ≤ fuel → read_lines fuel ls.flatten = ls := by
  induction ls with
  | nil =>
    intro fuel _
    cases fuel <;> rfl
  | cons l rest ih =>
    intro fuel hf
    cases fuel with
    | zero => simp at hf
    | succ m =>
      obtain ⟨body, rfl, hb, hlen⟩ := hls l (List.mem_cons_self _ _)
      have hg := fgets_line body rest.flatten 199 hb (by omega)
      have hcons : ((body ++ ['\n']) :: rest).flatten = body ++ '\n' :: rest.flatten := by
        simp
      rw [hcons]
      cases hbr : body ++ '\n' :: rest.flatten with
      | nil => simp at hbr
      | cons c cs =>
        rw [hbr] at hg
        simp only [read_lines, hg]
        rw [ih (fun x hx => hls x (List.mem_cons_of_mem _ hx)) m (by simpa using hf)]

theorem word_ok_spec {w : String} (h : word_ok w = true) :
    w.toList ≠ [] ∧ w.toList.length ≤ 9 ∧ fits w = true ∧
      ∀ c ∈ w.toList, 33 ≤ c.toNat ∧ c.toNat ≤ 126 := by
  simp only [word_ok, Bool.and_eq_true, decide_eq_true_eq, List.all_eq_true] at h
  obtain ⟨⟨h1, h2⟩, h3⟩ := h
  have hl : w.length = w.toList.length := rfl
  refine ⟨?_, by omega, by simp [fits, h2], h3⟩
  intro e
  rw [hl, e] at h1
  simp at h1

theorem balance_word : " balance ".toList
    = [' ', 'b', 'a', 'l', 'a', 'n', 'c', 'e', ' '] := by decide

theorem scan_account_render (a : BankAccount) (h : account_ok a = true) :
    scan_account (render_account a) = (some a.account_name, some a.balance) := by
  simp only [account_ok, Bool.and_eq_true] at h
  obtain ⟨hw, -, -, -⟩ := word_ok_spec h.1.1
  have hsolid := (word_ok_spec h.1.1).2.2.2
  have hs : scan_s (render_account a)
      = some (a.account_name, " balance ".toList ++ (render_int a.balance ++ ['\n'])) := by
    unfold render_account
    rw [scan_s_word _ _ hw (fun c hc => (hsolid c hc).1)]
    · rfl
    · intro c hc
      rw [balance_word] at hc
      simp at hc
      subst hc
      decide
  have hnum : ∀ c, (render_int a.balance ++ ['\n']).head? = some c → isspace c = false := by
    intro c hc
    rw [head?_append_of_ne_nil _ _ (render_int_ne_nil _)] at hc
    exact not_isspace_of_ge (render_int_solid _ c (List.mem_of_mem_head? hc)).1
  have hd : scan_d (render_int a.balance ++ ['\n']) = some (a.balance, ['\n']) := by
    apply scan_d_render
    intro c hc
    simp at hc
    subst hc
    decide
  have hb : ("balance".toList : List Char) = ['b', 'a', 'l', 'a', 'n', 'c', 'e'] := by decide
  have hsp : isspace ' ' = true := by decide
  have hnb : isspace 'b' = false := by decide
  have hform : ∀ X : List Char, " balance ".toList ++ X
      = ' ' :: 'b' :: 'a' :: 'l' :: 'a' :: 'n' :: 'c' :: 'e' :: ' ' :: X := by
    intro X
    rw [balance_word]
    rfl
  have hdrop1 : ∀ X : List Char, (' ' :: 'b' :: X).dropWhile isspace = 'b' :: X := by
    intro X
    simp [List.dropWhile_cons, hsp, hnb]
  have hlit : ∀ X : List Char,
      scan_literal ['b', 'a', 'l', 'a', 'n', 'c', 'e']
        ('b' :: 'a' :: 'l' :: 'a' :: 'n' :: 'c' :: 'e' :: X) = some X := by
    intro X
    simp [scan_literal]
  have hdrop2 : (' ' :: (render_int a.balance ++ ['\n'])).dropWhile isspace
      = render_int a.balance ++ ['\n'] := by
    rw [List.dropWhile_cons, if_pos hsp]
    exact dropWhile_stop _ hnum
  unfold scan_account
  rw [hs, hform, hb]
  simp only [hdrop1, hlit, hdrop2, hd]

theorem head?_render_account (a : BankAccount) (h : account_ok a = true) :
    (render_account a).head? = some 'A' := by
  simp only [account_ok, Bool.and_eq_true, decide_eq_true_eq] at h
  unfold render_account
  rw [head?_append_of_ne_nil _ _ (word_ok_spec h.1.1).1]
  exact h.1.2

theorem second_pass_line_account (st : Pass) (a : BankAccount) (h : account_ok a = true) :
    second_pass_line st (render_account a)
      = some ⟨some a.balance, st.accounts ++ [a], st.client_operations⟩ := by
  have hfit := (word_ok_spec (by
    simp only [account_ok, Bool.and_eq_true] at h
    exact h.1.1 : word_ok a.account_name = true)).2.2.1
  have hint : in_int a.balance = true := by
    simp only [account_ok, Bool.and_eq_true] at h
    exact h.2
  unfold second_pass_line
  rw [if_pos (head?_render_account a h), scan_account_render a h]
  simp only [hfit, if_true, Option.isSome_some, hint]

theorem render_transactions_cons (t : Transaction) (ts : List Transaction) :
    render_transactions (t :: ts) = ' ' :: ptr_of t (render_transactions ts) := by
  simp [render_transactions, render_transaction, ptr_of, List.append_assoc]

theorem render_transactions_head (ts : List Transaction) :
    ∃ c R, render_transactions ts = c :: R ∧ (c = ' ' ∨ c = '\n') := by
  cases ts with
  | nil => exact ⟨'\n', [], rfl, Or.inr rfl⟩
  | cons t r => exact ⟨' ', _, render_transactions_cons t r, Or.inl rfl⟩

theorem skip_word_word (w X : List Char) (hw : ∀ c ∈ w, 33 ≤ c.toNat) :
    skip_word (w ++ ' ' :: X) = X := by
  unfold skip_word
  rw [dropWhile_append_stop w (' ' :: X)]
  · rfl
  · intro c hc
    have := hw c hc
    have hne : c ≠ ' ' := by
      intro e
      subst e
      revert this
      decide
    simp [hne]
  · intro c hc
    simp at hc
    subst hc
    decide

theorem skip_word_last (w : List Char) (hw : ∀ c ∈ w, 33 ≤ c.toNat) :
    skip_word (w ++ ['\n']) = [] := by
  unfold skip_word
  have : (w ++ ['\n']).dropWhile (fun c => c != ' ') = [] := by
    rw [List.dropWhile_eq_nil_iff]
    intro c hc
    rcases List.mem_append.mp hc with h | h
    · have := hw c h
      have hne : c ≠ ' ' := by
        intro e
        subst e
        revert this
        decide
      simp [hne]
    · simp at h
      subst h
      decide
  rw [this]
  rfl

theorem scan_transaction_render (t : Transaction) (R : List Char)
    (ht : transaction_ok t = true)
    (hR : ∃ c R2, R = c :: R2 ∧ (c = ' ' ∨ c = '\n')) :
    scan_transaction (ptr_of t R) = .item t := by
  simp only [transaction_ok, Bool.and_eq_true] at ht
  obtain ⟨⟨hty, hac⟩, hamt⟩ := ht
  obtain ⟨hty1, -, hty3, hty4⟩ := word_ok_spec hty
  obtain ⟨hac1, -, hac3, hac4⟩ := word_ok_spec hac
  have hsp : isspace ' ' = true := by decide
  have h1 : scan_s (ptr_of t R)
      = some (t.type, ' ' :: (t.account_name.toList ++ (' ' :: (render_int t.amount ++ R)))) := by
    unfold ptr_of
    rw [scan_s_word _ _ hty1 (fun c hc => (hty4 c hc).1)]
    · rfl
    · intro c hc
      simp at hc
      subst hc
      decide
  have h2 : scan_s (' ' :: (t.account_name.toList ++ (' ' :: (render_int t.amount ++ R))))
      = some (t.account_name, ' ' :: (render_int t.amount ++ R)) := by
    rw [scan_s_skip _ _ hsp, scan_s_word _ _ hac1 (fun c hc => (hac4 c hc).1)]
    · rfl
    · intro c hc
      simp at hc
      subst hc
      decide
  have h3 : scan_d (' ' :: (render_int t.amount ++ R)) = some (t.amount, R) := by
    rw [scan_d_skip _ _ hsp]
    apply scan_d_render
    obtain ⟨c, R2, rfl, hc⟩ := hR
    intro d hd
    simp at hd
    subst hd
    rcases hc with rfl | rfl <;> decide
  unfold scan_transaction
  simp only [h1, hty3, if_true, h2, hac3, h3, hamt]

theorem skip_three (t : Transaction) (R : List Char) (ht : transaction_ok t = true) :
    skip_word (skip_word (ptr_of t R)) = render_int t.amount ++ R := by
  simp only [transaction_ok, Bool.and_eq_true] at ht
  obtain ⟨⟨hty, hac⟩, -⟩ := ht
  unfold ptr_of
  rw [skip_word_word _ _ (fun c hc => ((word_ok_spec hty).2.2.2 c hc).1),
    skip_word_word _ _ (fun c hc => ((word_ok_spec hac).2.2.2 c hc).1)]

theorem parse_transactions_nil (fuel : Nat) : parse_transactions fuel [] = some [] := by
  cases fuel <;> rfl

theorem parse_transactions_step (fuel : Nat) (l : List Char) (hl : l ≠ []) (t : Transaction)
    (hs : scan_transaction l = .item t) :
    parse_transactions (fuel + 1) l
      = match parse_transactions fuel (skip_word (skip_word (skip_word l))) with
        | none => none
        | some ts => some (t :: ts) := by
  cases l with
  | nil => exact absurd rfl hl
  | cons c cs => simp only [parse_transactions, hs]

theorem parse_transactions_render (ts : List Transaction) :
    ∀ (t : Transaction) (fuel : Nat), transaction_ok t = true →
      (∀ u ∈ ts, transaction_ok u = true) → ts.length + 1 ≤ fuel →
      parse_transactions fuel (ptr_of t (render_transactions ts)) = some (t :: ts) := by
  induction ts with
  | nil =>
    intro t fuel ht _ hf
    cases fuel with
    | zero => omega
    | succ m =>
      have hne : ptr_of t (render_transactions []) ≠ [] := by
        unfold ptr_of
        simp
      rw [parse_transactions_step m _ hne t
        (scan_transaction_render t _ ht (render_transactions_head []))]
      rw [skip_three t _ ht]
      have : skip_word (render_int t.amount ++ render_transactions []) = [] :=
        skip_word_last _ (fun c hc => (render_int_solid _ c hc).1)
      rw [this, parse_transactions_nil]
  | cons u us ih =>
    intro t fuel ht hus hf
    cases fuel with
    | zero => omega
    | succ m =>
      have hne : ptr_of t (render_transactions (u :: us)) ≠ [] := by
        unfold ptr_of
        simp
      rw [parse_transactions_step m _ hne t
        (scan_transaction_render t _ ht (render_transactions_head _))]
      rw [skip_three t _ ht, render_transactions_cons,
        skip_word_word _ _ (fun c hc => (render_int_solid _ c hc).1)]
      rw [ih u m (hus u (List.mem_cons_self _ _))
        (fun x hx => hus x (List.mem_cons_of_mem _ hx)) (by simpa using hf)]

theorem drop_word (w X : List Char) (hw : ∀ c ∈ w, 33 ≤ c.toNat) :
    (w ++ ' ' :: X).dropWhile (fun c => c != ' ') = ' ' :: X := by
  apply dropWhile_append_stop w (' ' :: X)
  · intro c hc
    have := hw c hc
    have hne : c ≠ ' ' := by
      intro e
      subst e
      revert this
      decide
    simp [hne]
  · intro c hc
    simp at hc
    subst hc
    decide

theorem drop_word_last (w : List Char) (hw : ∀ c ∈ w, 33 ≤ c.toNat) :
    (w ++ ['\n']).dropWhile (fun c => c != ' ') = [] := by
  rw [List.dropWhile_eq_nil_iff]
  intro c hc
  rcases List.mem_append.mp hc with h | h
  · have := hw c h
    have hne : c ≠ ' ' := by
      intro e
      subst e
      revert this
      decide
    simp [hne]
  · simp at h
    subst h
    decide

theorem ptr_of_length (t : Transaction) (R : List Char) (ht : transaction_ok t = true) :
    R.length + 5 ≤ (ptr_of t R).length := by
  simp only [transaction_ok, Bool.and_eq_true] at ht
  obtain ⟨⟨hty, hac⟩, -⟩ := ht
  have h1 := List.length_pos.mpr (word_ok_spec hty).1
  have h2 := List.length_pos.mpr (word_ok_spec hac).1
  have h3 := List.length_pos.mpr (render_int_ne_nil t.amount)
  unfold ptr_of
  simp only [List.length_append, List.length_cons]
  omega

theorem render_transactions_length (ts : List Transaction)
    (hts : ∀ u ∈ ts, transaction_ok u = true) :
    6 * ts.length + 1 ≤ (render_transactions ts).length := by
  induction ts with
  | nil => simp [render_transactions]
  | cons t r ih =>
    have h1 := ptr_of_length t (render_transactions r) (hts t (List.mem_cons_self _ _))
    have h2 := ih (fun u hu => hts u (List.mem_cons_of_mem _ hu))
    rw [render_transactions_cons]
    simp only [List.length_cons]
    omega

theorem client_ok_spec {c : ClientOperation} (h : client_ok c = true) :
    word_ok c.client_name = true ∧ c.client_name.toList.head? = some 'C' ∧
      (∀ u ∈ c.transactions, transaction_ok u = true) ∧ (render_client c).length ≤ 199 := by
  simp only [client_ok, Bool.and_eq_true, decide_eq_true_eq, List.all_eq_true] at h
  exact ⟨h.1.1.1, h.1.1.2, h.1.2, h.2⟩

theorem parse_client_render (c : ClientOperation) (h : client_ok c = true) :
    parse_client (render_client c) = some c := by
  obtain ⟨hw, -, hts, hlen⟩ := client_ok_spec h
  obtain ⟨hw1, -, hfit, hsolid⟩ := word_ok_spec hw
  obtain ⟨name, ts⟩ := c
  simp only at hw hts hlen hw1 hfit hsolid
  have hs : scan_s (render_client ⟨name, ts⟩) = some (name, render_transactions ts) := by
    unfold render_client
    rw [scan_s_word _ _ hw1 (fun c hc => (hsolid c hc).1)]
    · rfl
    · obtain ⟨d, R, hd, hd2⟩ := render_transactions_head ts
      intro c hc
      rw [hd] at hc
      simp at hc
      subst hc
      rcases hd2 with rfl | rfl <;> decide
  unfold parse_client
  rw [hs]
  simp only [hfit, if_true]
  cases ts with
  | nil =>
    have : (render_client ⟨name, []⟩).dropWhile (fun c => c != ' ') = [] :=
      drop_word_last _ (fun c hc => (hsolid c hc).1)
    rw [this]
  | cons t r =>
    have hform : render_client ⟨name, t :: r⟩
        = name.toList ++ ' ' :: ptr_of t (render_transactions r) := by
      unfold render_client
      rw [render_transactions_cons]
    have hdrop : (render_client ⟨name, t :: r⟩).dropWhile (fun c => c != ' ')
        = ' ' :: ptr_of t (render_transactions r) := by
      rw [hform]
      exact drop_word _ _ (fun c hc => (hsolid c hc).1)
    have ht := hts t (List.mem_cons_self _ _)
    have hr : ∀ u ∈ r, transaction_ok u = true := fun u hu => hts u (List.mem_cons_of_mem _ hu)
    have hl1 := ptr_of_length t (render_transactions r) ht
    have hl2 := render_transactions_length r hr
    have hparse := parse_transactions_render r t (ptr_of t (render_transactions r)).length ht hr
      (by omega)
    have hcount : (t :: r).length ≤ 50 := by
      rw [hform] at hlen
      simp only [List.length_append, List.length_cons] at hlen ⊢
      omega
    rw [hdrop]
    simp only [hparse, hcount, if_true]

theorem head?_render_client (c : ClientOperation) (h : client_ok c = true) :
    (render_client c).head? = some 'C' := by
  obtain ⟨hw, hC, -, -⟩ := client_ok_spec h
  unfold render_client
  rw [head?_append_of_ne_nil _ _ (word_ok_spec hw).1]
  exact hC

theorem second_pass_line_client (st : Pass) (c : ClientOperation) (h : client_ok c = true) :
    second_pass_line st (render_client c)
      = some ⟨st.balance, st.accounts, st.client_operations ++ [c]⟩ := by
  have hC := head?_render_client c h
  have hA : ¬ (render_client c).head? = some 'A' := by
    rw [hC]
    decide
  unfold second_pass_line
  rw [if_neg hA, if_pos hC, parse_client_render c h]

theorem second_pass_cons_some {st st2 : Pass} {l : List Char} (ls : List (List Char))
    (h : second_pass_line st l = some st2) :
    second_pass st (l :: ls) = second_pass st2 ls := by
  simp only [second_pass, h]

theorem second_pass_accounts (accounts : List BankAccount)
    (h : ∀ a ∈ accounts, account_ok a = true) (rest : List (List Char)) :
    ∀ st : Pass, ∃ b, second_pass st (accounts.map render_account ++ rest)
      = second_pass ⟨b, st.accounts ++ accounts, st.client_operations⟩ rest := by
  induction accounts with
  | nil =>
    intro st
    exact ⟨st.balance, by simp⟩
  | cons a r ih =>
    intro st
    obtain ⟨b, hb⟩ := ih (fun x hx => h x (List.mem_cons_of_mem _ hx))
      ⟨some a.balance, st.accounts ++ [a], st.client_operations⟩
    refine ⟨b, ?_⟩
    rw [List.map_cons, List.cons_append, second_pass_cons_some _
      (second_pass_line_account st a (h a (List.mem_cons_self _ _))), hb]
    simp

theorem second_pass_clients (clients : List ClientOperation)
    (h : ∀ c ∈ clients, client_ok c = true) :
    ∀ st : Pass, second_pass st (clients.map render_client)
      = some ⟨st.balance, st.accounts, st.client_operations ++ clients⟩ := by
  induction clients with
  | nil =>
    intro st
    simp [second_pass]
  | cons c r ih =>
    intro st
    rw [List.map_cons, second_pass_cons_some _
      (second_pass_line_client st c (h c (List.mem_cons_self _ _))),
      ih (fun x hx => h x (List.mem_cons_of_mem _ hx))]
    simp

theorem text_line_ok {l : List Char} (h : text_line l) : line_ok l := by
  obtain ⟨body, rfl, hlen, hc⟩ := h
  refine ⟨body, rfl, ?_, hlen⟩
  intro hn
  rcases hc _ hn with h | h
  · revert h
    decide
  · revert h
    decide

theorem text_line_plain {l : List Char} (h : text_line l) : ∀ c ∈ l, plain c = true := by
  obtain ⟨body, rfl, -, hc⟩ := h
  intro c hmem
  rcases List.mem_append.mp hmem with h1 | h1
  · rcases hc c h1 with h | h
    · subst h
      decide
    · simp only [plain, Bool.and_eq_true, decide_eq_true_eq]
      omega
  · simp at h1
    subst h1
    decide

theorem text_line_account (a : BankAccount) (h : account_ok a = true) :
    text_line (render_account a) := by
  simp only [account_ok, Bool.and_eq_true] at h
  obtain ⟨-, hlen, -, hsolid⟩ := word_ok_spec h.1.1
  have hnum := render_int_length a.balance h.2
  refine ⟨a.account_name.toList ++ (" balance ".toList ++ render_int a.balance), ?_, ?_, ?_⟩
  · simp [render_account, List.append_assoc]
  · rw [balance_word]
    simp only [List.length_append, List.length_cons, List.length_nil]
    omega
  · intro c hc
    rcases List.mem_append.mp hc with h1 | h1
    · exact Or.inr (hsolid c h1)
    · rcases List.mem_append.mp h1 with h2 | h2
      · rw [balance_word] at h2
        simp only [List.mem_cons, List.mem_singleton, List.not_mem_nil, or_false] at h2
        rcases h2 with rfl | rfl | rfl | rfl | rfl | rfl | rfl | rfl | rfl <;> decide
      · exact Or.inr (render_int_solid _ c h2)

theorem render_transactions_body (ts : List Transaction)
    (hts : ∀ u ∈ ts, transaction_ok u = true) :
    ∃ body, render_transactions ts = body ++ ['\n'] ∧
      ∀ c ∈ body, c = ' ' ∨ (33 ≤ c.toNat ∧ c.toNat ≤ 126) := by
  induction ts with
  | nil => exact ⟨[], rfl, by simp⟩
  | cons t r ih =>
    obtain ⟨body, hb, hc⟩ := ih (fun u hu => hts u (List.mem_cons_of_mem _ hu))
    have ht := hts t (List.mem_cons_self _ _)
    simp only [transaction_ok, Bool.and_eq_true] at ht
    refine ⟨render_transaction t ++ body, ?_, ?_⟩
    · simp [render_transactions, hb, List.append_assoc]
    · intro c hmem
      rcases List.mem_append.mp hmem with h1 | h1
      · unfold render_transaction at h1
        simp only [List.mem_cons, List.mem_append] at h1
        rcases h1 with rfl | h1 | rfl | h1 | rfl | h1
        · exact Or.inl rfl
        · exact Or.inr ((word_ok_spec ht.1.1).2.2.2 c h1)
        · exact Or.inl rfl
        · exact Or.inr ((word_ok_spec ht.1.2).2.2.2 c h1)
        · exact Or.inl rfl
        · exact Or.inr (render_int_solid _ c h1)
      · exact hc c h1

theorem text_line_client (c : ClientOperation) (h : client_ok c = true) :
    text_line (render_client c) := by
  obtain ⟨hw, -, hts, hlen⟩ := client_ok_spec h
  obtain ⟨body, hb, hc⟩ := render_transactions_body c.transactions hts
  refine ⟨c.client_name.toList ++ body, ?_, ?_, ?_⟩
  · simp [render_client, hb, List.append_assoc]
  · unfold render_client at hlen
    rw [hb] at hlen
    simp only [List.length_append, List.length_cons, List.length_nil] at hlen ⊢
    omega
  · intro d hd
    rcases List.mem_append.mp hd with h1 | h1
    · exact Or.inr ((word_ok_spec hw).2.2.2 d h1)
    · exact hc d h1

theorem length_le_flatten (ls : List (List Char)) (h : ∀ l ∈ ls, l ≠ []) :
    ls.length ≤ ls.flatten.length := by
  induction ls with
  | nil => simp
  | cons l r ih =>
    have h1 := List.length_pos.mpr (h l (List.mem_cons_self _ _))
    have h2 := ih (fun x hx => h x (List.mem_cons_of_mem _ hx))
    simp only [List.flatten_cons, List.length_append, List.length_cons]
    omega

theorem count_lines_append (c : Char) (xs ys : List (List Char)) :
    count_lines c (xs ++ ys) = count_lines c xs + count_lines c ys := by
  simp [count_lines, List.filter_append]

theorem count_lines_all (c : Char) (xs : List (List Char))
    (h : ∀ l ∈ xs, l.head? = some c) : count_lines c xs = xs.length := by
  unfold count_lines
  rw [List.filter_eq_self.mpr]
  intro l hl
  simp [h l hl]

theorem count_lines_none (c : Char) (xs : List (List Char))
    (h : ∀ l ∈ xs, ¬ l.head? = some c) : count_lines c xs = 0 := by
  unfold count_lines
  rw [List.filter_eq_nil_iff.mpr]
  · rfl
  · intro l hl
    simp [h l hl]

theorem render_lines_text (accounts : List BankAccount) (clients : List ClientOperation)
    (ha : ∀ a ∈ accounts, account_ok a = true) (hc : ∀ c ∈ clients, client_ok c = true) :
    ∀ l ∈ render_lines accounts clients, text_line l := by
  intro l hl
  rcases List.mem_append.mp hl with h | h
  · obtain ⟨a, hmem, rfl⟩ := List.mem_map.mp h
    exact text_line_account a (ha a hmem)
  · obtain ⟨c, hmem, rfl⟩ := List.mem_map.mp h
    exact text_line_client c (hc c hmem)

theorem initialize_render (accounts : List BankAccount) (clients : List ClientOperation)
    (ha : ∀ a ∈ accounts, account_ok a = true) (hc : ∀ c ∈ clients, client_ok c = true) :
    initialize_bank (some (render_file accounts clients))
      = .ok ⟨accounts.length, clients.length, accounts, clients⟩ := by
  have htext := render_lines_text accounts clients ha hc
  have hlist : (render_file accounts clients).toList
      = (render_lines accounts clients).flatten := by
    simp [render_file, render_lines]
  have hlen : (render_file accounts clients).length
      = (render_lines accounts clients).flatten.length := by
    rw [← hlist]
    rfl
  have hplain : (render_file accounts clients).toList.all plain = true := by
    rw [hlist, List.all_eq_true]
    intro c hmem
    obtain ⟨l, hl, hcl⟩ := List.mem_flatten.mp hmem
    exact text_line_plain (htext l hl) c hcl
  have hfuel : (render_lines accounts clients).length
      ≤ (render_lines accounts clients).flatten.length := by
    apply length_le_flatten
    intro l hl
    obtain ⟨body, rfl, -, -⟩ := htext l hl
    simp
  have hread : read_lines (render_file accounts clients).length
      (render_file accounts clients).toList = render_lines accounts clients := by
    rw [hlen, hlist]
    exact read_lines_flatten _ (fun l hl => text_line_ok (htext l hl)) _ hfuel
  have hpass : ∃ b, second_pass ⟨none, [], []⟩ (render_lines accounts clients)
      = some ⟨b, accounts, clients⟩ := by
    obtain ⟨b, hb⟩ := second_pass_accounts accounts ha (clients.map render_client)
      ⟨none, [], []⟩
    refine ⟨b, ?_⟩
    unfold render_lines
    rw [hb, second_pass_clients clients hc]
    simp
  have hA : count_lines 'A' (render_lines accounts clients) = accounts.length := by
    unfold render_lines
    rw [count_lines_append, count_lines_all, count_lines_none]
    · simp
    · intro l hl
      obtain ⟨c, hmem, rfl⟩ := List.mem_map.mp hl
      rw [head?_render_client c (hc c hmem)]
      decide
    · intro l hl
      obtain ⟨a, hmem, rfl⟩ := List.mem_map.mp hl
      exact head?_render_account a (ha a hmem)
  have hC : count_lines 'C' (render_lines accounts clients) = clients.length := by
    unfold render_lines
    rw [count_lines_append, count_lines_none, count_lines_all]
    · simp
    · intro l hl
      obtain ⟨c, hmem, rfl⟩ := List.mem_map.mp hl
      exact head?_render_client c (hc c hmem)
    · intro l hl
      obtain ⟨a, hmem, rfl⟩ := List.mem_map.mp hl
      rw [head?_render_account a (ha a hmem)]
      decide
  obtain ⟨b, hb⟩ := hpass
  unfold initialize_bank
  simp only [hplain, if_true, hread, hb, hA, hC]

end Bank

/-! ## Arithmetic of `int` and `main` -/

namespace Bank

theorem wrap_int_eq (x : Int) (h : in_int x = true) : wrap_int x = x := by
  simp only [in_int, Bool.and_eq_true, decide_eq_true_eq] at h
  unfold wrap_int
  omega

theorem apply_transaction_int_eq (a : BankAccount) (t : Transaction)
    (h : in_int (apply_transaction a t).balance = true) :
    apply_transaction_int a t = apply_transaction a t := by
  unfold apply_transaction at h ⊢
  unfold apply_transaction_int
  split_ifs at h ⊢ with h1 h2 h3
  · rw [wrap_int_eq _ h]
  · rw [wrap_int_eq _ h]
  · rfl
  · rfl

theorem process_transaction_int_eq (accounts : List BankAccount) (t : Transaction)
    (h : ∀ a ∈ process_transaction accounts t, in_int a.balance = true) :
    process_transaction_int accounts t = process_transaction accounts t := by
  induction accounts with
  | nil => rfl
  | cons b rest ih =>
    by_cases hb : b.account_name = t.account_name
    · simp only [process_transaction, if_pos hb] at h
      simp only [process_transaction, process_transaction_int, if_pos hb]
      rw [apply_transaction_int_eq b t (h _ (List.mem_cons_self _ _))]
    · simp only [process_transaction, if_neg hb] at h
      simp only [process_transaction, process_transaction_int, if_neg hb]
      rw [ih (fun a ha => h a (List.mem_cons_of_mem _ ha))]

theorem process_transaction_int_first_match (accounts : List BankAccount)
    (t : Transaction) (i : Nat) (a : BankAccount) (hi : accounts[i]? = some a)
    (hname : a.account_name = t.account_name)
    (hfirst : ∀ j b, j < i → accounts[j]? = some b → b.account_name ≠ t.account_name) :
    process_transaction_int accounts t = accounts.set i (apply_transaction_int a t) := by
  induction accounts generalizing i with
  | nil => simp at hi
  | cons b rest ih =>
    cases i with
    | zero =>
      simp at hi
      subst hi
      simp [process_transaction_int, hname]
    | succ n =>
      have hb : b.account_name ≠ t.account_name := hfirst 0 b (Nat.succ_pos n) (by simp)
      have hi2 : rest[n]? = some a := by simpa using hi
      have hf : ∀ j c, j < n → rest[j]? = some c → c.account_name ≠ t.account_name := by
        intro j c hj hc
        exact hfirst (j + 1) c (Nat.succ_lt_succ hj) (by simpa using hc)
      simp [process_transaction_int, hb, ih n hi2 hf]

theorem main_render (accounts : List BankAccount) (clients : List ClientOperation)
    (ha : ∀ a ∈ accounts, account_ok a = true) (hc : ∀ c ∈ clients, client_ok c = true)
    (hne : clients ≠ []) :
    main (some (render_file accounts clients)) none
      = (interleavings (clients.map (fun op => op.transactions)).flatten.length
          (clients.map (fun op => op.transactions))).map
        (fun schedule => Outcome.report
          ⟨accounts.length, clients.length, report (run_schedule_int accounts schedule)⟩) := by
  have hlen : ¬ clients.length = 0 := fun e => hne (List.length_eq_zero.mp e)
  unfold main
  rw [initialize_render accounts clients ha hc]
  simp [hlen]

end Bank

/-! ## Locking discipline -/

namespace Bank

theorem lt_of_getElem? {α : Type} {l : List α} {i : Nat} {a : α} (h : l[i]? = some a) :
    i < l.length := by
  rcases Nat.lt_or_ge i l.length with h1 | h1
  · exact h1
  · rw [List.getElem?_eq_none h1] at h
    cases h

theorem inv_start (accounts : List BankAccount) (clients : List (List Transaction)) :
    Inv (start accounts clients) := by
  refine ⟨by simp [start], ?_, ?_, ?_⟩
  · intro tid th i hth hheld
    simp only [start, List.getElem?_map] at hth
    cases hc : clients[tid]? with
    | none => simp [hc] at hth
    | some ts =>
      simp [hc] at hth
      subst hth
      simp [Pc.held] at hheld
  · intro i tid hm
    simp only [start] at hm
    have hlt := lt_of_getElem? hm
    rw [List.getElem?_eq_getElem hlt] at hm
    simp at hm
  · intro tid th hth _
    simp only [start, List.getElem?_map] at hth
    cases hc : clients[tid]? with
    | none => simp [hc] at hth
    | some ts =>
      simp [hc] at hth
      subst hth
      rfl

theorem inv_update_thread {w : World} {tid : Nat} {th th2 : Thread}
    (accounts2 : List BankAccount) (hinv : Inv w) (hth : w.threads[tid]? = some th)
    (hheld : th2.pc.held = th.pc.held) (hlen : accounts2.length = w.accounts.length)
    (hfin : th2.transactions = [] → th2.pc = .scan 0) :
    Inv { accounts := accounts2, mutexes := w.mutexes, threads := w.threads.set tid th2 } := by
  have htid := lt_of_getElem? hth
  refine ⟨by simpa [hlen] using hinv.len, ?_, ?_, ?_⟩
  · intro tid2 th3 i h3 hh
    simp only [List.getElem?_set] at h3
    by_cases he : tid = tid2
    · subst he
      simp [htid] at h3
      subst h3
      exact hinv.owner tid th i hth (hheld ▸ hh)
    · simp [he] at h3
      exact hinv.owner tid2 th3 i h3 hh
  · intro i tid2 hm
    obtain ⟨th3, h3, hh⟩ := hinv.owned i tid2 hm
    by_cases he : tid = tid2
    · subst he
      refine ⟨th2, by simp [List.getElem?_set, htid], ?_⟩
      rw [hth] at h3
      cases h3
      rw [hheld]
      exact hh
    · exact ⟨th3, by simpa [List.getElem?_set, he] using h3, hh⟩
  · intro tid2 th3 h3 hnil
    simp only [List.getElem?_set] at h3
    by_cases he : tid = tid2
    · subst he
      simp [htid] at h3
      subst h3
      exact hfin hnil
    · simp [he] at h3
      exact hinv.finished tid2 th3 h3 hnil

theorem inv_lock {w : World} {tid i : Nat} {th th2 : Thread}
    (hinv : Inv w) (hth : w.threads[tid]? = some th)
    (hheld : th.pc.held = none) (hfree : w.mutexes[i]? = some none)
    (hheld2 : th2.pc.held = some i) (hfin : th2.transactions ≠ []) :
    Inv { accounts := w.accounts, mutexes := w.mutexes.set i (some tid),
          threads := w.threads.set tid th2 } := by
  have htid := lt_of_getElem? hth
  have hi := lt_of_getElem? hfree
  refine ⟨by simpa using hinv.len, ?_, ?_, ?_⟩
  · intro tid2 th3 j h3 hh
    simp only [List.getElem?_set] at h3
    by_cases he : tid = tid2
    · subst he
      simp [htid] at h3
      subst h3
      rw [hheld2] at hh
      cases hh
      simp [List.getElem?_set, hi]
    · simp [he] at h3
      have hm := hinv.owner tid2 th3 j h3 hh
      have hij : i ≠ j := by
        intro e
        subst e
        rw [hfree] at hm
        cases hm
      simpa [List.getElem?_set, hij] using hm
  · intro j tid2 hm
    simp only [List.getElem?_set] at hm
    by_cases hij : i = j
    · subst hij
      simp [hi] at hm
      subst hm
      exact ⟨th2, by simp [List.getElem?_set, htid], hheld2⟩
    · simp [hij] at hm
      obtain ⟨th3, h3, hh⟩ := hinv.owned j tid2 hm
      have he : tid ≠ tid2 := by
        intro e
        subst e
        rw [hth] at h3
        cases h3
        rw [hheld] at hh
        cases hh
      exact ⟨th3, by simpa [List.getElem?_set, he] using h3, hh⟩
  · intro tid2 th3 h3 hnil
    simp only [List.getElem?_set] at h3
    by_cases he : tid = tid2
    · subst he
      simp [htid] at h3
      subst h3
      exact absurd hnil hfin
    · simp [he] at h3
      exact hinv.finished tid2 th3 h3 hnil

theorem inv_unlock {w : World} {tid i : Nat} {th th2 : Thread}
    (hinv : Inv w) (hth : w.threads[tid]? = some th)
    (hheld : th.pc.held = some i) (hheld2 : th2.pc.held = none)
    (hfin : th2.transactions = [] → th2.pc = .scan 0) :
    Inv { accounts := w.accounts, mutexes := w.mutexes.set i none,
          threads := w.threads.set tid th2 } := by
  have htid := lt_of_getElem? hth
  have hown := hinv.owner tid th i hth hheld
  have hi := lt_of_getElem? hown
  refine ⟨by simpa using hinv.len, ?_, ?_, ?_⟩
  · intro tid2 th3 j h3 hh
    simp only [List.getElem?_set] at h3
    by_cases he : tid = tid2
    · subst he
      simp [htid] at h3
      subst h3
      rw [hheld2] at hh
      cases hh
    · simp [he] at h3
      have hm := hinv.owner tid2 th3 j h3 hh
      have hij : i ≠ j := by
        intro e
        subst e
        rw [hown] at hm
        simp at hm
        exact he hm
      simpa [List.getElem?_set, hij] using hm
  · intro j tid2 hm
    simp only [List.getElem?_set] at hm
    by_cases hij : i = j
    · subst hij
      simp [hi] at hm
    · simp [hij] at hm
      obtain ⟨th3, h3, hh⟩ := hinv.owned j tid2 hm
      have he : tid ≠ tid2 := by
        intro e
        subst e
        rw [hth] at h3
        cases h3
        rw [hheld] at hh
        cases hh
        exact hij rfl
      exact ⟨th3, by simpa [List.getElem?_set, he] using h3, hh⟩
  · intro tid2 th3 h3 hnil
    simp only [List.getElem?_set] at h3
    by_cases he : tid = tid2
    · subst he
      simp [htid] at h3
      subst h3
      exact hfin hnil
    · simp [he] at h3
      exact hinv.finished tid2 th3 h3 hnil

theorem step_inv {w w2 : World} {tid : Nat} {e : Option Action}
    (hinv : Inv w) (hstep : step w tid = some (e, w2)) : Inv w2 := by
  unfold step at hstep
  cases hth : w.threads[tid]? with
  | none => simp [hth] at hstep
  | some th =>
    obtain ⟨ts, pc⟩ := th
    cases ts with
    | nil => simp [hth] at hstep
    | cons t rest =>
      simp only [hth] at hstep
      cases pc with
      | scan i =>
        simp only at hstep
        cases ha : w.accounts[i]? with
        | none =>
          simp only [ha, Option.some.injEq, Prod.mk.injEq] at hstep
          rw [← hstep.2]
          exact inv_update_thread w.accounts hinv hth rfl rfl (fun _ => rfl)
        | some a =>
          simp only [ha] at hstep
          split_ifs at hstep with hn
          · simp only [Option.some.injEq, Prod.mk.injEq] at hstep
            rw [← hstep.2]
            exact inv_update_thread w.accounts hinv hth rfl rfl (fun h => by cases h)
          · simp only [Option.some.injEq, Prod.mk.injEq] at hstep
            rw [← hstep.2]
            exact inv_update_thread w.accounts hinv hth rfl rfl (fun h => by cases h)
      | lock i =>
        simp only at hstep
        cases hm : w.mutexes[i]? with
        | none => simp [hm] at hstep
        | some o =>
          cases o with
          | some x => simp [hm] at hstep
          | none =>
            simp only [hm, Option.some.injEq, Prod.mk.injEq] at hstep
            rw [← hstep.2]
            exact inv_lock hinv hth rfl hm rfl (by simp)
      | locked i =>
        simp only at hstep
        cases ha : w.accounts[i]? with
        | none => simp [ha] at hstep
        | some a =>
          simp only [ha] at hstep
          split_ifs at hstep with h1 h2 h3
          all_goals
            simp only [Option.some.injEq, Prod.mk.injEq] at hstep
            rw [← hstep.2]
            exact inv_update_thread w.accounts hinv hth rfl rfl (fun h => by cases h)
      | sub i =>
        simp only at hstep
        cases ha : w.accounts[i]? with
        | none => simp [ha] at hstep
        | some a =>
          simp only [ha, Option.some.injEq, Prod.mk.injEq] at hstep
          rw [← hstep.2]
          exact inv_update_thread w.accounts hinv hth rfl rfl (fun h => by cases h)
      | store i v =>
        simp only at hstep
        cases ha : w.accounts[i]? with
        | none => simp [ha] at hstep
        | some a =>
          simp only [ha, Option.some.injEq, Prod.mk.injEq] at hstep
          rw [← hstep.2]
          exact inv_update_thread _ hinv hth rfl (by simp) (fun h => by cases h)
      | unlock i =>
        simp only [Option.some.injEq, Prod.mk.injEq] at hstep
        rw [← hstep.2]
        exact inv_unlock hinv hth rfl rfl (fun _ => rfl)

theorem run_inv (w : World) (sched : List Nat) (hinv : Inv w) : Inv (run w sched) := by
  induction sched generalizing w with
  | nil => exact hinv
  | cons tid s ih =>
    unfold run
    cases hs : step w tid with
    | none => exact ih w hinv
    | some p =>
      obtain ⟨e, w2⟩ := p
      exact ih w2 (step_inv hinv hs)

theorem step_access {w w2 : World} {tid i : Nat} {a : Action}
    (hstep : step w tid = some (some a, w2)) (ha : a = .read i ∨ a = .write i) :
    ∃ th, w.threads[tid]? = some th ∧ th.pc.held = some i := by
  unfold step at hstep
  cases hth : w.threads[tid]? with
  | none => simp [hth] at hstep
  | some th =>
    obtain ⟨ts, pc⟩ := th
    refine ⟨⟨ts, pc⟩, rfl, ?_⟩
    cases ts with
    | nil => simp [hth] at hstep
    | cons t rest =>
      simp only [hth] at hstep
      cases pc with
      | scan j =>
        simp only at hstep
        cases hacc : w.accounts[j]? with
        | none => simp [hacc] at hstep
        | some b =>
          simp only [hacc] at hstep
          split_ifs at hstep <;> simp at hstep
      | lock j =>
        simp only at hstep
        cases hm : w.mutexes[j]? with
        | none => simp [hm] at hstep
        | some o =>
          cases o with
          | some x => simp [hm] at hstep
          | none =>
            simp only [hm, Option.some.injEq, Prod.mk.injEq] at hstep
            rcases ha with h | h <;> rw [h] at hstep <;> simp at hstep
      | locked j =>
        simp only at hstep
        cases hacc : w.accounts[j]? with
        | none => simp [hacc] at hstep
        | some b =>
          simp only [hacc] at hstep
          split_ifs at hstep
          all_goals
            simp only [Option.some.injEq, Prod.mk.injEq] at hstep
            rcases ha with h | h <;> rw [h] at hstep <;> simp at hstep
            try simp [Pc.held, hstep.1]
      | sub j =>
        simp only at hstep
        cases hacc : w.accounts[j]? with
        | none => simp [hacc] at hstep
        | some b =>
          simp only [hacc, Option.some.injEq, Prod.mk.injEq] at hstep
          rcases ha with h | h <;> rw [h] at hstep <;> simp at hstep
          simp [Pc.held, hstep.1]
      | store j v =>
        simp only at hstep
        cases hacc : w.accounts[j]? with
        | none => simp [hacc] at hstep
        | some b =>
          simp only [hacc, Option.some.injEq, Prod.mk.injEq] at hstep
          rcases ha with h | h <;> rw [h] at hstep <;> simp at hstep
          simp [Pc.held, hstep.1]
      | unlock j =>
        simp only [Option.some.injEq, Prod.mk.injEq] at hstep
        rcases ha with h | h <;> rw [h] at hstep <;> simp at hstep

theorem step_mutex {w w2 : World} {tid : Nat} {e : Option Action}
    (hinv : Inv w) (hstep : step w tid = some (e, w2)) (i : Nat) :
    (e = some (.lock i) ∧ w.mutexes[i]? = some none ∧ w2.mutexes[i]? = some (some tid)) ∨
    (e = some (.unlock i) ∧ w.mutexes[i]? = some (some tid) ∧ w2.mutexes[i]? = some none) ∨
    (e ≠ some (.lock i) ∧ e ≠ some (.unlock i) ∧ w2.mutexes[i]? = w.mutexes[i]?) := by
  unfold step at hstep
  cases hth : w.threads[tid]? with
  | none => simp [hth] at hstep
  | some th =>
    obtain ⟨ts, pc⟩ := th
    cases ts with
    | nil => simp [hth] at hstep
    | cons t rest =>
      simp only [hth] at hstep
      cases pc with
      | scan j =>
        simp only at hstep
        cases hacc : w.accounts[j]? with
        | none =>
          simp only [hacc, Option.some.injEq, Prod.mk.injEq] at hstep
          obtain ⟨rfl, rfl⟩ := hstep
          simp
        | some b =>
          simp only [hacc] at hstep
          split_ifs at hstep
          all_goals
            simp only [Option.some.injEq, Prod.mk.injEq] at hstep
            obtain ⟨rfl, rfl⟩ := hstep
            simp
      | lock j =>
        simp only at hstep
        cases hm : w.mutexes[j]? with
        | none => simp [hm] at hstep
        | some o =>
          cases o with
          | some x => simp [hm] at hstep
          | none =>
            simp only [hm, Option.some.injEq, Prod.mk.injEq] at hstep
            obtain ⟨rfl, rfl⟩ := hstep
            have hj := lt_of_getElem? hm
            by_cases hji : j = i
            · subst hji
              left
              simp [hm, List.getElem?_set, hj]
            · right; right
              simp [hji, List.getElem?_set]
      | locked j =>
        simp only at hstep
        cases hacc : w.accounts[j]? with
        | none => simp [hacc] at hstep
        | some b =>
          simp only [hacc] at hstep
          split_ifs at hstep
          all_goals
            simp only [Option.some.injEq, Prod.mk.injEq] at hstep
            obtain ⟨rfl, rfl⟩ := hstep
            simp
      | sub j =>
        simp only at hstep
        cases hacc : w.accounts[j]? with
        | none => simp [hacc] at hstep
        | some b =>
          simp only [hacc, Option.some.injEq, Prod.mk.injEq] at hstep
          obtain ⟨rfl, rfl⟩ := hstep
          simp
      | store j v =>
        simp only at hstep
        cases hacc : w.accounts[j]? with
        | none => simp [hacc] at hstep
        | some b =>
          simp only [hacc, Option.some.injEq, Prod.mk.injEq] at hstep
          obtain ⟨rfl, rfl⟩ := hstep
          simp
      | unlock j =>
        simp only [Option.some.injEq, Prod.mk.injEq] at hstep
        obtain ⟨rfl, rfl⟩ := hstep
        have hown := hinv.owner tid _ j hth rfl
        have hj := lt_of_getElem? hown
        by_cases hji : j = i
        · subst hji
          right; left
          simp [hown, List.getElem?_set, hj]
        · right; right
          simp [hji, List.getElem?_set]

theorem step_progress {w : World} {tid i : Nat} {th : Thread}
    (hinv : Inv w) (hth : w.threads[tid]? = some th) (hheld : th.pc.held = some i) :
    ∃ e w2 th2, step w tid = some (e, w2) ∧ w2.threads[tid]? = some th2 ∧
      th2.pc.rank < th.pc.rank ∧
      (th2.pc.held = some i ∨
        (e = some (.unlock i) ∧ th2 = ⟨th.transactions.tail, .scan 0⟩)) := by
  have htid := lt_of_getElem? hth
  have hown := hinv.owner tid th i hth hheld
  have hi : i < w.accounts.length := hinv.len ▸ lt_of_getElem? hown
  obtain ⟨ts, pc⟩ := th
  cases ts with
  | nil =>
    have := hinv.finished tid _ hth rfl
    simp only at this
    subst this
    simp [Pc.held] at hheld
  | cons t rest =>
    cases pc with
    | scan j => simp [Pc.held] at hheld
    | lock j => simp [Pc.held] at hheld
    | locked j =>
      simp only [Pc.held, Option.some.injEq] at hheld
      subst hheld
      unfold step
      simp only [hth, List.getElem?_eq_getElem hi]
      split_ifs
      all_goals
        refine ⟨_, _, _, rfl, List.getElem?_set_self htid, ?_⟩
        simp [Pc.rank, Pc.held]
    | sub j =>
      simp only [Pc.held, Option.some.injEq] at hheld
      subst hheld
      unfold step
      simp only [hth, List.getElem?_eq_getElem hi]
      refine ⟨_, _, _, rfl, List.getElem?_set_self htid, ?_⟩
      simp [Pc.rank, Pc.held]
    | store j v =>
      simp only [Pc.held, Option.some.injEq] at hheld
      subst hheld
      unfold step
      simp only [hth, List.getElem?_eq_getElem hi]
      refine ⟨_, _, _, rfl, List.getElem?_set_self htid, ?_⟩
      simp [Pc.rank, Pc.held]
    | unlock j =>
      simp only [Pc.held, Option.some.injEq] at hheld
      subst hheld
      unfold step
      simp only [hth]
      refine ⟨_, _, _, rfl, List.getElem?_set_self htid, ?_⟩
      simp [Pc.rank]

theorem mutual_exclusion {w : World} (hinv : Inv w) {tid1 tid2 i : Nat} {th1 th2 : Thread}
    (hne : tid1 ≠ tid2) (h1 : w.threads[tid1]? = some th1) (h2 : w.threads[tid2]? = some th2)
    (hh1 : th1.pc.held = some i) : th2.pc.held ≠ some i := by
  intro hh2
  have a := hinv.owner tid1 th1 i h1 hh1
  have b := hinv.owner tid2 th2 i h2 hh2
  rw [a] at b
  simp at b
  exact hne b

theorem no_mutex_outside {w : World} (hinv : Inv w) {tid : Nat} {th : Thread}
    (hth : w.threads[tid]? = some th) (hheld : th.pc.held = none) (i : Nat) :
    w.mutexes[i]? ≠ some (some tid) := by
  intro hm
  obtain ⟨th2, h2, hh⟩ := hinv.owned i tid hm
  rw [hth] at h2
  cases h2
  rw [hheld] at hh
  cases hh

end Bank

/-! ## Atomicity -/

namespace Bank

theorem map_set_same {α β : Type} (f : α → β) {l : List α} {k : Nat} {x y : α}
    (hx : l[k]? = some x) (hf : f y = f x) : (l.set k y).map f = l.map f := by
  rw [List.map_set, hf]
  apply set_same
  simp [hx]

theorem good_start (accounts : List BankAccount) (clients : List (List Transaction)) :
    Good accounts clients (start accounts clients) [] := by
  refine ⟨inv_start accounts clients, rfl, ?_, ?_⟩
  · intro s hs
    have hmap : (start accounts clients).threads.map Thread.todo = clients := by
      simp only [start, List.map_map]
      have hid : (Thread.todo ∘ fun ts => (⟨ts, .scan 0⟩ : Thread)) = id := by
        funext ts
        rfl
      rw [hid, List.map_id]
    rw [hmap] at hs
    simpa using hs
  · intro tid th hth
    simp only [start, List.getElem?_map] at hth
    cases hc : clients[tid]? with
    | none => simp [hc] at hth
    | some ts =>
      simp [hc] at hth
      subst hth
      cases ts with
      | nil => simp [Thread.ok]
      | cons t r =>
        simp only [Thread.ok]
        intro j b hj
        exact absurd hj (Nat.not_lt_zero j)

theorem first_match_set_balance {accounts : List BankAccount} {i : Nat} {a : BankAccount}
    (v : Int) (ha : accounts[i]? = some a) (name : String) (k : Nat)
    (h : first_match accounts name k) :
    first_match (accounts.set i { a with balance := v }) name k := by
  have hi := lt_of_getElem? ha
  obtain ⟨⟨b, hb, hbn⟩, hf⟩ := h
  constructor
  · by_cases hik : i = k
    · subst hik
      rw [ha] at hb
      cases hb
      exact ⟨{ a with balance := v }, by simp [List.getElem?_set, hi], hbn⟩
    · exact ⟨b, by simpa [List.getElem?_set, hik] using hb, hbn⟩
  · intro j c hj hc
    by_cases hij : i = j
    · subst hij
      simp [List.getElem?_set, hi] at hc
      subst hc
      exact hf i a hj ha
    · simp [List.getElem?_set, hij] at hc
      exact hf j c hj hc

theorem ok_set_balance {accounts : List BankAccount} {i : Nat} {a : BankAccount}
    (v : Int) (ha : accounts[i]? = some a) (th : Thread) (hne : th.pc.held ≠ some i)
    (hok : th.ok accounts) : th.ok (accounts.set i { a with balance := v }) := by
  have hi := lt_of_getElem? ha
  obtain ⟨ts, pc⟩ := th
  cases ts with
  | nil => simp [Thread.ok]
  | cons t rest =>
    cases pc with
    | scan k =>
      simp only [Thread.ok] at hok ⊢
      intro j c hj hc
      by_cases hij : i = j
      · subst hij
        simp [List.getElem?_set, hi] at hc
        subst hc
        exact hok i a hj ha
      · simp [List.getElem?_set, hij] at hc
        exact hok j c hj hc
    | lock k =>
      simp only [Thread.ok] at hok ⊢
      exact first_match_set_balance v ha _ k hok
    | locked k =>
      simp only [Thread.ok] at hok ⊢
      exact first_match_set_balance v ha _ k hok
    | sub k =>
      simp only [Thread.ok] at hok ⊢
      have hik : i ≠ k := fun e => hne (by simp [Pc.held, e])
      refine ⟨first_match_set_balance v ha _ k hok.1, hok.2.1, ?_⟩
      simpa [List.getElem?_set, hik] using hok.2.2
    | store k u =>
      simp only [Thread.ok] at hok ⊢
      have hik : i ≠ k := fun e => hne (by simp [Pc.held, e])
      refine ⟨first_match_set_balance v ha _ k hok.1, ?_⟩
      simpa [List.getElem?_set, hik] using hok.2
    | unlock k => simp [Thread.ok]

theorem ok_scan_zero (accounts : List BankAccount) (ts : List Transaction) :
    Thread.ok accounts ⟨ts, .scan 0⟩ := by
  cases ts with
  | nil => simp [Thread.ok]
  | cons t r =>
    simp only [Thread.ok]
    intro j b hj
    exact absurd hj (Nat.not_lt_zero j)

theorem ok_after_set {accounts0 : List BankAccount} {clients0 : List (List Transaction)}
    {w : World} {h : List Transaction} {tid : Nat} {th2 : Thread}
    (hg : Good accounts0 clients0 w h) (hok : th2.ok w.accounts) :
    ∀ (tid3 : Nat) (th3 : Thread), (w.threads.set tid th2)[tid3]? = some th3 →
      th3.ok w.accounts := by
  intro tid3 th3 h3
  simp only [List.getElem?_set] at h3
  by_cases he : tid = tid3
  · subst he
    by_cases hlt : tid < w.threads.length
    · simp [hlt] at h3
      subst h3
      exact hok
    · simp [hlt] at h3
  · simp [he] at h3
    exact hg.threads_ok tid3 th3 h3

theorem good_keep {accounts0 : List BankAccount} {clients0 : List (List Transaction)}
    {w w2 : World} {h : List Transaction} {tid : Nat} {th th2 : Thread}
    (hg : Good accounts0 clients0 w h) (hinv2 : Inv w2)
    (hacc : w2.accounts = w.accounts) (hthreads : w2.threads = w.threads.set tid th2)
    (hth : w.threads[tid]? = some th) (htodo : th2.todo = th.todo)
    (hok : th2.ok w.accounts) : Good accounts0 clients0 w2 h := by
  refine ⟨hinv2, hacc ▸ hg.ledger, ?_, ?_⟩
  · intro s hs
    rw [hthreads, map_set_same Thread.todo hth htodo] at hs
    exact hg.order s hs
  · intro tid3 th3 h3
    rw [hacc]
    rw [hthreads] at h3
    exact ok_after_set hg hok tid3 th3 h3

theorem good_effect {accounts0 : List BankAccount} {clients0 : List (List Transaction)}
    {w w2 : World} {h : List Transaction} {tid : Nat} {th th2 : Thread}
    (hg : Good accounts0 clients0 w h) (hinv2 : Inv w2)
    (hthreads : w2.threads = w.threads.set tid th2)
    (hth : w.threads[tid]? = some th) (t : Transaction) (htodo : th.todo = t :: th2.todo)
    (hacc : w2.accounts = process_transaction w.accounts t)
    (hok : ∀ (tid3 : Nat) (th3 : Thread), w2.threads[tid3]? = some th3 →
      th3.ok w2.accounts) :
    Good accounts0 clients0 w2 (h ++ [t]) := by
  refine ⟨hinv2, ?_, ?_, hok⟩
  · rw [hacc, hg.ledger, run_schedule_append]
    rfl
  · intro s hs
    rw [hthreads, List.map_set] at hs
    have hk : (w.threads.map Thread.todo)[tid]? = some (t :: th2.todo) := by
      simp [hth, htodo]
    have := hg.order (t :: s) (Interleaving.step hk hs)
    simpa using this

theorem first_match_process {accounts : List BankAccount} {t : Transaction} {i : Nat}
    {a : BankAccount} (hfm : first_match accounts t.account_name i)
    (ha : accounts[i]? = some a) :
    process_transaction accounts t = accounts.set i (apply_transaction a t) := by
  obtain ⟨⟨b, hb, hbn⟩, hf⟩ := hfm
  rw [ha] at hb
  cases hb
  exact process_transaction_first_match accounts t i a ha hbn hf

theorem step_good {accounts0 : List BankAccount} {clients0 : List (List Transaction)}
    {w w2 : World} {h : List Transaction} {tid : Nat} {e : Option Action}
    (hg : Good accounts0 clients0 w h) (hstep : step w tid = some (e, w2)) :
    ∃ h2, Good accounts0 clients0 w2 h2 := by
  have hinv2 : Inv w2 := step_inv hg.inv hstep
  unfold step at hstep
  cases hth : w.threads[tid]? with
  | none => simp [hth] at hstep
  | some th =>
    have hok := hg.threads_ok tid th hth
    obtain ⟨ts, pc⟩ := th
    cases ts with
    | nil => simp [hth] at hstep
    | cons t rest =>
      simp only [hth] at hstep
      cases pc with
      | scan i =>
        simp only [Thread.ok] at hok
        simp only at hstep
        cases ha : w.accounts[i]? with
        | none =>
          simp only [ha, Option.some.injEq, Prod.mk.injEq] at hstep
          obtain ⟨-, rfl⟩ := hstep
          have hnm : process_transaction w.accounts t = w.accounts := by
            apply process_transaction_no_match
            intro b hb
            obtain ⟨j, hj⟩ := List.getElem?_of_mem hb
            have hjl := lt_of_getElem? hj
            have hil : w.accounts.length ≤ i := by
              rcases Nat.lt_or_ge i w.accounts.length with h1 | h1
              · rw [List.getElem?_eq_getElem h1] at ha
                cases ha
              · exact h1
            exact hok j b (Nat.lt_of_lt_of_le hjl hil) hj
          exact ⟨h ++ [t], good_effect hg hinv2 rfl hth t rfl hnm.symm
            (ok_after_set hg (ok_scan_zero _ _))⟩
        | some a =>
          simp only [ha] at hstep
          split_ifs at hstep with hn
          · simp only [Option.some.injEq, Prod.mk.injEq] at hstep
            obtain ⟨-, rfl⟩ := hstep
            refine ⟨h, good_keep hg hinv2 rfl rfl hth rfl ?_⟩
            simp only [Thread.ok]
            exact ⟨⟨a, ha, hn⟩, hok⟩
          · simp only [Option.some.injEq, Prod.mk.injEq] at hstep
            obtain ⟨-, rfl⟩ := hstep
            refine ⟨h, good_keep hg hinv2 rfl rfl hth rfl ?_⟩
            simp only [Thread.ok]
            intro j b hj hb
            rcases Nat.lt_or_ge j i with h1 | h1
            · exact hok j b h1 hb
            · have hji : j = i := by omega
              subst hji
              rw [ha] at hb
              cases hb
              exact hn
      | lock i =>
        simp only [Thread.ok] at hok
        simp only at hstep
        cases hm : w.mutexes[i]? with
        | none => simp [hm] at hstep
        | some o =>
          cases o with
          | some x => simp [hm] at hstep
          | none =>
            simp only [hm, Option.some.injEq, Prod.mk.injEq] at hstep
            obtain ⟨-, rfl⟩ := hstep
            refine ⟨h, good_keep hg hinv2 rfl rfl hth rfl ?_⟩
            simp only [Thread.ok]
            exact hok
      | locked i =>
        simp only [Thread.ok] at hok
        simp only at hstep
        cases ha : w.accounts[i]? with
        | none => simp [ha] at hstep
        | some a =>
          simp only [ha] at hstep
          split_ifs at hstep with h1 h2 h3
          · simp only [Option.some.injEq, Prod.mk.injEq] at hstep
            obtain ⟨-, rfl⟩ := hstep
            refine ⟨h, good_keep hg hinv2 rfl rfl hth rfl ?_⟩
            simp only [Thread.ok]
            exact ⟨hok, a, ha, apply_transaction_deposit a t h1⟩
          · simp only [Option.some.injEq, Prod.mk.injEq] at hstep
            obtain ⟨-, rfl⟩ := hstep
            refine ⟨h, good_keep hg hinv2 rfl rfl hth rfl ?_⟩
            simp only [Thread.ok]
            exact ⟨hok, h2, a, ha, h3⟩
          · simp only [Option.some.injEq, Prod.mk.injEq] at hstep
            obtain ⟨-, rfl⟩ := hstep
            have hsame : process_transaction w.accounts t = w.accounts := by
              rw [first_match_process hok ha, apply_transaction_withdraw a t h2, if_neg h3]
              exact set_same ha
            refine ⟨h ++ [t], good_effect hg hinv2 rfl hth t rfl hsame.symm
              (ok_after_set hg ?_)⟩
            simp [Thread.ok]
          · simp only [Option.some.injEq, Prod.mk.injEq] at hstep
            obtain ⟨-, rfl⟩ := hstep
            have hsame : process_transaction w.accounts t = w.accounts := by
              rw [first_match_process hok ha]
              unfold apply_transaction
              rw [if_neg h1, if_neg h2]
              exact set_same ha
            refine ⟨h ++ [t], good_effect hg hinv2 rfl hth t rfl hsame.symm
              (ok_after_set hg ?_)⟩
            simp [Thread.ok]
      | sub i =>
        simp only [Thread.ok] at hok
        simp only at hstep
        cases ha : w.accounts[i]? with
        | none => simp [ha] at hstep
        | some a =>
          simp only [ha, Option.some.injEq, Prod.mk.injEq] at hstep
          obtain ⟨-, rfl⟩ := hstep
          refine ⟨h, good_keep hg hinv2 rfl rfl hth rfl ?_⟩
          simp only [Thread.ok]
          obtain ⟨hfm, hty, a2, ha2, hge⟩ := hok
          rw [ha] at ha2
          cases ha2
          refine ⟨hfm, a, ha, ?_⟩
          rw [apply_transaction_withdraw a t hty, if_pos hge]
      | store i v =>
        simp only [Thread.ok] at hok
        simp only at hstep
        cases ha : w.accounts[i]? with
        | none => simp [ha] at hstep
        | some a =>
          simp only [ha, Option.some.injEq, Prod.mk.injEq] at hstep
          obtain ⟨-, rfl⟩ := hstep
          obtain ⟨hfm, a2, ha2, happ⟩ := hok
          rw [ha] at ha2
          cases ha2
          have hacc : w.accounts.set i { a with balance := v }
              = process_transaction w.accounts t := by
            rw [first_match_process hfm ha, happ]
          refine ⟨h ++ [t], good_effect hg hinv2 rfl hth t rfl hacc ?_⟩
          intro tid3 th3 h3
          simp only [List.getElem?_set] at h3
          by_cases he : tid = tid3
          · subst he
            simp [lt_of_getElem? hth] at h3
            subst h3
            simp [Thread.ok]
          · simp [he] at h3
            apply ok_set_balance v ha th3 _ (hg.threads_ok tid3 th3 h3)
            exact mutual_exclusion hg.inv he hth h3 rfl
      | unlock i =>
        simp only [Option.some.injEq, Prod.mk.injEq] at hstep
        obtain ⟨-, rfl⟩ := hstep
        exact ⟨h, good_keep hg hinv2 rfl rfl hth rfl (ok_scan_zero _ _)⟩

theorem run_good {accounts0 : List BankAccount} {clients0 : List (List Transaction)}
    (sched : List Nat) (w : World) (h : List Transaction)
    (hg : Good accounts0 clients0 w h) :
    ∃ h2, Good accounts0 clients0 (run w sched) h2 := by
  induction sched generalizing w h with
  | nil => exact ⟨h, hg⟩
  | cons tid s ih =>
    unfold run
    cases hs : step w tid with
    | none => exact ih w h hg
    | some p =>
      obtain ⟨e, w2⟩ := p
      obtain ⟨h2, hg2⟩ := step_good hg hs
      exact ih w2 h2 hg2

theorem step_scan {w w2 : World} {tid k : Nat} {th : Thread} {e : Option Action}
    (hth : w.threads[tid]? = some th) (hpc : th.pc = .scan k)
    (hstep : step w tid = some (e, w2)) :
    e = none ∧ w2.mutexes = w.mutexes ∧ w2.accounts = w.accounts := by
  obtain ⟨ts, pc⟩ := th
  simp only at hpc
  subst hpc
  unfold step at hstep
  cases ts with
  | nil => simp [hth] at hstep
  | cons t rest =>
    simp only [hth] at hstep
    cases ha : w.accounts[k]? with
    | none =>
      simp only [ha, Option.some.injEq, Prod.mk.injEq] at hstep
      obtain ⟨rfl, rfl⟩ := hstep
      exact ⟨rfl, rfl, rfl⟩
    | some a =>
      simp only [ha] at hstep
      split_ifs at hstep
      all_goals
        simp only [Option.some.injEq, Prod.mk.injEq] at hstep
        obtain ⟨rfl, rfl⟩ := hstep
        exact ⟨rfl, rfl, rfl⟩

theorem sum_map_set_lt {α : Type} (f : α → Nat) {l : List α} {k : Nat} {x y : α}
    (hx : l[k]? = some x) (hf : f y < f x) :
    ((l.set k y).map f).sum < (l.map f).sum := by
  induction l generalizing k with
  | nil => simp at hx
  | cons b rest ih =>
    cases k with
    | zero =>
      simp at hx
      subst hx
      simp only [List.set_cons_zero, List.map_cons, List.sum_cons]
      omega
    | succ n =>
      have hx2 : rest[n]? = some x := by simpa using hx
      have := ih hx2
      simp only [List.set_cons_succ, List.map_cons, List.sum_cons]
      omega

theorem work_lt {w : World} {tid : Nat} {th th2 : Thread} (accounts2 : List BankAccount)
    (mutexes2 : List (Option Nat))
    (hth : w.threads[tid]? = some th) (hlen : accounts2.length = w.accounts.length)
    (hlt : th2.work w.accounts.length < th.work w.accounts.length) :
    World.work { accounts := accounts2, mutexes := mutexes2,
                 threads := w.threads.set tid th2 } < w.work := by
  unfold World.work
  simp only [hlen]
  exact sum_map_set_lt _ hth hlt

theorem work_return_lt (n k : Nat) (rest : List Transaction) (hk : 0 < k) :
    Thread.work n ⟨rest, .scan 0⟩ < k + rest.length * (n + 7) := by
  cases rest with
  | nil =>
    simp only [Thread.work]
    omega
  | cons r rs =>
    simp only [Thread.work, List.length_cons]
    have : (rs.length + 1) * (n + 7) = rs.length * (n + 7) + (n + 7) := by ring
    omega

theorem step_work {w w2 : World} {tid : Nat} {e : Option Action}
    (hstep : step w tid = some (e, w2)) : w2.work < w.work := by
  unfold step at hstep
  cases hth : w.threads[tid]? with
  | none => simp [hth] at hstep
  | some th =>
    obtain ⟨ts, pc⟩ := th
    cases ts with
    | nil => simp [hth] at hstep
    | cons t rest =>
      simp only [hth] at hstep
      cases pc with
      | scan i =>
        simp only at hstep
        cases ha : w.accounts[i]? with
        | none =>
          simp only [ha, Option.some.injEq, Prod.mk.injEq] at hstep
          obtain ⟨-, rfl⟩ := hstep
          apply work_lt w.accounts w.mutexes hth rfl
          simp only [Thread.work]
          exact work_return_lt _ _ rest (by omega)
        | some a =>
          have hi := lt_of_getElem? ha
          simp only [ha] at hstep
          split_ifs at hstep with hn
          · simp only [Option.some.injEq, Prod.mk.injEq] at hstep
            obtain ⟨-, rfl⟩ := hstep
            apply work_lt w.accounts w.mutexes hth rfl
            simp only [Thread.work]
            omega
          · simp only [Option.some.injEq, Prod.mk.injEq] at hstep
            obtain ⟨-, rfl⟩ := hstep
            apply work_lt w.accounts w.mutexes hth rfl
            simp only [Thread.work]
            omega
      | lock i =>
        simp only at hstep
        cases hm : w.mutexes[i]? with
        | none => simp [hm] at hstep
        | some o =>
          cases o with
          | some x => simp [hm] at hstep
          | none =>
            simp only [hm, Option.some.injEq, Prod.mk.injEq] at hstep
            obtain ⟨-, rfl⟩ := hstep
            apply work_lt w.accounts _ hth rfl
            simp only [Thread.work]
            omega
      | locked i =>
        simp only at hstep
        cases ha : w.accounts[i]? with
        | none => simp [ha] at hstep
        | some a =>
          simp only [ha] at hstep
          split_ifs at hstep
          all_goals
            simp only [Option.some.injEq, Prod.mk.injEq] at hstep
            obtain ⟨-, rfl⟩ := hstep
            apply work_lt w.accounts w.mutexes hth rfl
            simp only [Thread.work]
            omega
      | sub i =>
        simp only at hstep
        cases ha : w.accounts[i]? with
        | none => simp [ha] at hstep
        | some a =>
          simp only [ha, Option.some.injEq, Prod.mk.injEq] at hstep
          obtain ⟨-, rfl⟩ := hstep
          apply work_lt w.accounts w.mutexes hth rfl
          simp only [Thread.work]
          omega
      | store i v =>
        simp only at hstep
        cases ha : w.accounts[i]? with
        | none => simp [ha] at hstep
        | some a =>
          simp only [ha, Option.some.injEq, Prod.mk.injEq] at hstep
          obtain ⟨-, rfl⟩ := hstep
          apply work_lt _ w.mutexes hth (by simp)
          simp only [Thread.work]
          omega
      | unlock i =>
        simp only [Option.some.injEq, Prod.mk.injEq] at hstep
        obtain ⟨-, rfl⟩ := hstep
        apply work_lt w.accounts _ hth rfl
        simp only [Thread.work]
        exact work_return_lt _ _ rest (by omega)

theorem step_scan_some {w : World} {tid k : Nat} {t : Transaction}
    {rest : List Transaction} (hth : w.threads[tid]? = some ⟨t :: rest, .scan k⟩) :
    ∃ e w2, step w tid = some (e, w2) := by
  unfold step
  simp only [hth]
  cases ha : w.accounts[k]? with
  | none => exact ⟨_, _, rfl⟩
  | some a =>
    simp only
    split_ifs
    · exact ⟨_, _, rfl⟩
    · exact ⟨_, _, rfl⟩

theorem some_thread_moves {accounts0 : List BankAccount}
    {clients0 : List (List Transaction)} {w : World} {h : List Transaction}
    (hg : Good accounts0 clients0 w h)
    (hnot : ¬ ∀ th ∈ w.threads, th.transactions = []) :
    ∃ tid e w2, step w tid = some (e, w2) := by
  have hex : ∃ th ∈ w.threads, th.transactions ≠ [] := by
    by_contra hc
    apply hnot
    intro th hth
    by_contra hne
    exact hc ⟨th, hth, hne⟩
  obtain ⟨th, hmem, hne⟩ := hex
  obtain ⟨tid, hth⟩ := List.getElem?_of_mem hmem
  have hok := hg.threads_ok tid th hth
  obtain ⟨ts, pc⟩ := th
  cases ts with
  | nil => exact absurd rfl hne
  | cons t rest =>
    cases pc with
    | scan k =>
      obtain ⟨e, w2, hs⟩ := step_scan_some hth
      exact ⟨tid, e, w2, hs⟩
    | lock i =>
      simp only [Thread.ok] at hok
      obtain ⟨⟨a, ha, -⟩, -⟩ := hok
      have hi : i < w.mutexes.length := hg.inv.len ▸ lt_of_getElem? ha
      cases hm : w.mutexes[i] with
      | none =>
        have hm2 : w.mutexes[i]? = some none := by
          rw [List.getElem?_eq_getElem hi, hm]
        have hs : ∃ e w2, step w tid = some (e, w2) := by
          unfold step
          simp only [hth, hm2]
          exact ⟨_, _, rfl⟩
        obtain ⟨e, w2, hs⟩ := hs
        exact ⟨tid, e, w2, hs⟩
      | some tid2 =>
        have hm2 : w.mutexes[i]? = some (some tid2) := by
          rw [List.getElem?_eq_getElem hi, hm]
        obtain ⟨th2, h2, hh2⟩ := hg.inv.owned i tid2 hm2
        obtain ⟨e, w2, -, hs, -⟩ := step_progress hg.inv h2 hh2
        exact ⟨tid2, e, w2, hs⟩
    | locked i =>
      obtain ⟨e, w2, -, hs, -⟩ := step_progress hg.inv hth rfl
      exact ⟨tid, e, w2, hs⟩
    | sub i =>
      obtain ⟨e, w2, -, hs, -⟩ := step_progress hg.inv hth rfl
      exact ⟨tid, e, w2, hs⟩
    | store i v =>
      obtain ⟨e, w2, -, hs, -⟩ := step_progress hg.inv hth rfl
      exact ⟨tid, e, w2, hs⟩
    | unlock i =>
      obtain ⟨e, w2, -, hs, -⟩ := step_progress hg.inv hth rfl
      exact ⟨tid, e, w2, hs⟩

theorem run_append (w : World) (s1 s2 : List Nat) :
    run w (s1 ++ s2) = run (run w s1) s2 := by
  induction s1 generalizing w with
  | nil => rfl
  | cons tid s ih =>
    simp only [List.cons_append, run]
    cases step w tid with
    | none => exact ih w
    | some p => exact ih p.2

theorem completes {accounts0 : List BankAccount} {clients0 : List (List Transaction)}
    (n : Nat) : ∀ (w : World) (h : List Transaction), w.work ≤ n →
      Good accounts0 clients0 w h →
      ∃ sched2, ∀ th ∈ (run w sched2).threads, th.transactions = [] := by
  induction n with
  | zero =>
    intro w h hw hg
    by_cases hdone : ∀ th ∈ w.threads, th.transactions = []
    · exact ⟨[], hdone⟩
    · obtain ⟨tid, e, w2, hs⟩ := some_thread_moves hg hdone
      have := step_work hs
      omega
  | succ m ih =>
    intro w h hw hg
    by_cases hdone : ∀ th ∈ w.threads, th.transactions = []
    · exact ⟨[], hdone⟩
    · obtain ⟨tid, e, w2, hs⟩ := some_thread_moves hg hdone
      have hlt := step_work hs
      obtain ⟨h2, hg2⟩ := step_good hg hs
      obtain ⟨sched2, hfin⟩ := ih w2 h2 (by omega) hg2
      refine ⟨tid :: sched2, ?_⟩
      simp only [run, hs]
      exact hfin

theorem reached_good (accounts : List BankAccount) (clients : List (List Transaction))
    (sched : List Nat) : ∃ h, Good accounts clients (reached accounts clients sched) h :=
  run_good sched _ [] (good_start accounts clients)

theorem atomicity (accounts : List BankAccount) (clients : List (List Transaction))
    (sched : List Nat)
    (hdone : ∀ th ∈ (reached accounts clients sched).threads, th.transactions = []) :
    ∃ s, Interleaving clients s ∧
      (reached accounts clients sched).accounts = run_schedule accounts s := by
  obtain ⟨h, hg⟩ := reached_good accounts clients sched
  refine ⟨h, ?_, hg.ledger⟩
  have hnil : Interleaving ((reached accounts clients sched).threads.map Thread.todo) [] := by
    apply Interleaving.done
    intro c hc
    obtain ⟨th, hth, rfl⟩ := List.mem_map.mp hc
    have ht := hdone th hth
    obtain ⟨n, hn⟩ := List.getElem?_of_mem hth
    have hpc := hg.inv.finished n th hn ht
    unfold Thread.todo
    rw [hpc]
    exact ht
  simpa using hg.order [] hnil

theorem interleaving_single {ts s : List Transaction} (h : Interleaving [ts] s) :
    s = ts := by
  induction s generalizing ts with
  | nil =>
    cases h with
    | done hall => exact (hall ts (List.mem_singleton.mpr rfl)).symm
  | cons t s2 ih =>
    cases h with
    | @step _ k _ rest _ hk hrest =>
      cases k with
      | zero =>
        simp at hk
        subst hk
        rw [ih (by simpa using hrest)]
      | succ n => simp at hk

/-- A client thread that runs alone: the loop over the account indices, the mutex
operations and the separate reads and writes of the balance end, and whenever they
have ended the account table is `client_thread accounts ts`. -/
theorem single_thread_refines (accounts : List BankAccount) (ts : List Transaction) :
    (∃ sched, ∀ th ∈ (reached accounts [ts] sched).threads, th.transactions = []) ∧
    ∀ sched, (∀ th ∈ (reached accounts [ts] sched).threads, th.transactions = []) →
      (reached accounts [ts] sched).accounts = client_thread accounts ts := by
  constructor
  · obtain ⟨h, hg⟩ := reached_good accounts [ts] []
    obtain ⟨sched2, hfin⟩ := completes _ _ h (Nat.le_refl _) hg
    exact ⟨sched2, hfin⟩
  · intro sched hdone
    obtain ⟨s, hint, hacc⟩ := atomicity accounts [ts] sched hdone
    rw [hacc, interleaving_single hint]
    rfl

/-- Balance non-negativity at every instant of a concurrent run: with non-negative
initial balances and non-negative amounts, every state that the threads reach has
non-negative balances only. -/
theorem balance_nonneg_at_every_step (accounts : List BankAccount)
    (clients : List (List Transaction)) (sched : List Nat)
    (h0 : ∀ a ∈ accounts, 0 ≤ a.balance) (hc : ∀ c ∈ clients, ∀ t ∈ c, 0 ≤ t.amount) :
    ∀ a ∈ (reached accounts clients sched).accounts, 0 ≤ a.balance := by
  obtain ⟨h, hg⟩ := reached_good accounts clients sched
  rw [hg.ledger]
  apply run_schedule_nonneg accounts h h0
  intro t ht
  have hint := hg.order _ (Interleaving.sequential _)
  have hmem : t ∈ clients.flatten :=
    hint.perm.mem_iff.mp (List.mem_append_left _ ht)
  obtain ⟨c, hcm, htc⟩ := List.mem_flatten.mp hmem
  exact hc c hcm t htc

end Bank

/-! ## Properties of the specification -/

namespace Bank

end Bank

namespace Bank

/-- C2 (balance non-negativity): from a ledger whose balances are all non-negative,
after every call of a finite sequence of `process_transaction` calls whose amounts
are all non-negative (that is, after every prefix `ts.take k` of the sequence),
every account balance is non-negative. -/
theorem balance_nonneg_invariant (accounts : List BankAccount) (ts : List Transaction)
    (h0 : ∀ a ∈ accounts, 0 ≤ a.balance) (hts : ∀ t ∈ ts, 0 ≤ t.amount) (k : Nat) :
    ∀ a ∈ run_schedule accounts (ts.take k), 0 ≤ a.balance :=
  run_schedule_nonneg accounts (ts.take k) h0
    (fun t ht => hts t (List.mem_of_mem_take ht))

theorem balance_nonneg_invariant_witness :
    (run_schedule [⟨"A", 100⟩, ⟨"B", 50⟩]
        ([⟨"deposit", "A", 50⟩, ⟨"withdraw", "A", 200⟩, ⟨"withdraw", "B", 50⟩,
          ⟨"withdraw", "B", 1⟩].take 3)).all (fun a => decide (0 ≤ a.balance)) = true :=
  List.all_eq_true.mpr (fun a ha => decide_eq_true
    (balance_nonneg_invariant [⟨"A", 100⟩, ⟨"B", 50⟩]
      [⟨"deposit", "A", 50⟩, ⟨"withdraw", "A", 200⟩, ⟨"withdraw", "B", 50⟩,
        ⟨"withdraw", "B", 1⟩] (by decide) (by decide) 3 a ha))

/-- C4 (unknown account): a transaction whose account name equals no account's name
leaves the ledger unchanged, and a client whose list is `xs ++ [t] ++ ys` with such
a `t` ends with the ledger that the calls of `process_transaction` for `xs` and
then for `ys` give, one after the other in list order: `t` is skipped and every
transaction of `ys` is still processed.  This is also the ledger of the list
`xs ++ ys`. -/
theorem unknown_account_noop (accounts : List BankAccount) (t : Transaction)
    (h : ∀ a ∈ accounts, a.account_name ≠ t.account_name) :
    process_transaction accounts t = accounts ∧
    ∀ xs ys : List Transaction,
      client_thread accounts (xs ++ [t] ++ ys)
        = ys.foldl process_transaction (xs.foldl process_transaction accounts) ∧
      client_thread accounts (xs ++ [t] ++ ys) = client_thread accounts (xs ++ ys) := by
  refine ⟨process_transaction_no_match accounts t h, ?_⟩
  intro xs ys
  have habs : ∀ a ∈ run_schedule accounts xs, a.account_name ≠ t.account_name :=
    names_absent_of_map_eq (run_schedule_names accounts xs) h
  have hstep : process_transaction (xs.foldl process_transaction accounts) t
      = xs.foldl process_transaction accounts :=
    process_transaction_no_match _ t habs
  have hall : client_thread accounts (xs ++ [t] ++ ys)
      = ys.foldl process_transaction (xs.foldl process_transaction accounts) := by
    unfold client_thread
    rw [List.foldl_append, List.foldl_append, List.foldl_cons, List.foldl_nil, hstep]
  refine ⟨hall, ?_⟩
  rw [hall]
  unfold client_thread
  rw [List.foldl_append]

theorem unknown_account_noop_witness :
    process_transaction [⟨"A", 100⟩, ⟨"B", 50⟩] ⟨"deposit", "Z", 9⟩
        = [⟨"A", 100⟩, ⟨"B", 50⟩] ∧
    client_thread [⟨"A", 100⟩, ⟨"B", 50⟩]
        ([⟨"deposit", "A", 50⟩] ++ [⟨"deposit", "Z", 9⟩] ++
          [⟨"withdraw", "B", 20⟩, ⟨"withdraw", "A", 30⟩])
      = [⟨"A", 120⟩, ⟨"B", 30⟩] :=
  ⟨(unknown_account_noop [⟨"A", 100⟩, ⟨"B", 50⟩] ⟨"deposit", "Z", 9⟩ (by decide)).1,
   ((unknown_account_noop [⟨"A", 100⟩, ⟨"B", 50⟩] ⟨"deposit", "Z", 9⟩ (by decide)).2
      [⟨"deposit", "A", 50⟩] [⟨"withdraw", "B", 20⟩, ⟨"withdraw", "A", 30⟩]).1.trans
      (by decide)⟩

/-- C5 (frame): a call of `process_transaction` keeps the number of accounts, every
account's name and the order of the accounts, and leaves every account other than
the first one whose name equals the transaction's account name exactly as it was
(also when names repeat); hence after any sequence of calls the report lists the
same names in the order the accounts were supplied. -/
theorem process_transaction_frame (accounts : List BankAccount) (t : Transaction) :
    (process_transaction accounts t).length = accounts.length ∧
    (process_transaction accounts t).map (fun a => a.account_name)
      = accounts.map (fun a => a.account_name) ∧
    (∀ j, ¬ first_match accounts t.account_name j →
      (process_transaction accounts t)[j]? = accounts[j]?) ∧
    (∀ i j, first_match accounts t.account_name i →
      first_match accounts t.account_name j → i = j) ∧
    (∀ schedule, (report (run_schedule accounts schedule)).map (fun p => p.1)
      = (report accounts).map (fun p => p.1)) := by
  refine ⟨process_transaction_length accounts t, process_transaction_names accounts t,
    process_transaction_other accounts t, ?_, ?_⟩
  · intro i j hi hj
    obtain ⟨⟨a, ha, han⟩, hfi⟩ := hi
    obtain ⟨⟨b, hb, hbn⟩, hfj⟩ := hj
    rcases Nat.lt_trichotomy i j with hlt | heq | hgt
    · exact absurd han (hfj i a hlt ha)
    · exact heq
    · exact absurd hbn (hfi j b hgt hb)
  · intro schedule
    have hn := run_schedule_names accounts schedule
    simpa [report, List.map_map, Function.comp] using hn

/-- C8 (isolation as commutation): for two transactions with different account
names, processing `t1` then `t2` gives exactly the ledger of `t2` then `t1`, and in
that ledger neither update is lost nor touched by the other: the first account named
by `t1` holds what `t1` alone makes of its initial state, the first account named by
`t2` holds what `t2` alone makes of its initial state, and every other account is as
it was. -/
theorem different_accounts_commute (accounts : List BankAccount) (t1 t2 : Transaction)
    (h : t1.account_name ≠ t2.account_name) :
    process_transaction (process_transaction accounts t1) t2
      = process_transaction (process_transaction accounts t2) t1 ∧
    (∀ i a, accounts[i]? = some a → first_match accounts t1.account_name i →
      (process_transaction (process_transaction accounts t1) t2)[i]?
        = some (apply_transaction a t1)) ∧
    (∀ j b, accounts[j]? = some b → first_match accounts t2.account_name j →
      (process_transaction (process_transaction accounts t1) t2)[j]?
        = some (apply_transaction b t2)) ∧
    (∀ k, ¬ first_match accounts t1.account_name k →
      ¬ first_match accounts t2.account_name k →
      (process_transaction (process_transaction accounts t1) t2)[k]? = accounts[k]?) := by
  have hcomm := process_transaction_comm accounts t1 t2 h
  refine ⟨hcomm, ?_, ?_, ?_⟩
  · intro i a hi hfm
    exact process_then_other accounts t1 t2 h i a hi hfm
  · intro j b hj hfm
    rw [hcomm]
    exact process_then_other accounts t2 t1 (fun e => h e.symm) j b hj hfm
  · intro k h1 h2
    rw [process_transaction_other _ t2 k
      (fun hf => h2 (first_match_of_names (process_transaction_names accounts t1) hf))]
    exact process_transaction_other accounts t1 k h1

theorem different_accounts_commute_witness :
    process_transaction (process_transaction [⟨"A", 100⟩, ⟨"B", 50⟩, ⟨"A", 1⟩]
        ⟨"withdraw", "A", 30⟩) ⟨"deposit", "B", 20⟩
      = process_transaction (process_transaction [⟨"A", 100⟩, ⟨"B", 50⟩, ⟨"A", 1⟩]
        ⟨"deposit", "B", 20⟩) ⟨"withdraw", "A", 30⟩ ∧
    (process_transaction (process_transaction [⟨"A", 100⟩, ⟨"B", 50⟩, ⟨"A", 1⟩]
        ⟨"withdraw", "A", 30⟩) ⟨"deposit", "B", 20⟩)[0]? = some ⟨"A", 70⟩ ∧
    (process_transaction (process_transaction [⟨"A", 100⟩, ⟨"B", 50⟩, ⟨"A", 1⟩]
        ⟨"withdraw", "A", 30⟩) ⟨"deposit", "B", 20⟩)[1]? = some ⟨"B", 70⟩ :=
  ⟨(different_accounts_commute [⟨"A", 100⟩, ⟨"B", 50⟩, ⟨"A", 1⟩]
      ⟨"withdraw", "A", 30⟩ ⟨"deposit", "B", 20⟩ (by decide)).1,
   (different_accounts_commute [⟨"A", 100⟩, ⟨"B", 50⟩, ⟨"A", 1⟩]
      ⟨"withdraw", "A", 30⟩ ⟨"deposit", "B", 20⟩ (by decide)).2.1 0 ⟨"A", 100⟩ rfl
      ⟨⟨⟨"A", 100⟩, rfl, rfl⟩, fun j b hj _ => absurd hj (Nat.not_lt_zero j)⟩,
   (different_accounts_commute [⟨"A", 100⟩, ⟨"B", 50⟩, ⟨"A", 1⟩]
      ⟨"withdraw", "A", 30⟩ ⟨"deposit", "B", 20⟩ (by decide)).2.2.1 1 ⟨"B", 50⟩ rfl
      ⟨⟨⟨"B", 50⟩, rfl, rfl⟩, fun j b hj hb => by
        have hj0 : j = 0 := by omega
        subst hj0
        simp at hb
        subst hb
        decide⟩⟩

end Bank

namespace Bank

/-- C3 (conservation under deposits-only): for a ledger with unique account names
and client lists that hold deposits only, after every interleaving of the lists the
account at each index `i` has its initial balance plus the sum of the amounts of all
deposits, of all clients, that name it. -/
theorem deposits_only_conservation (accounts : List BankAccount)
    (clients : List (List Transaction)) (schedule : List Transaction)
    (hnodup : (accounts.map (fun a => a.account_name)).Nodup)
    (hdep : ∀ c ∈ clients, ∀ t ∈ c, t.type = "deposit")
    (hint : Interleaving clients schedule) (i : Nat) (a : BankAccount)
    (hi : accounts[i]? = some a) :
    (run_schedule accounts schedule)[i]?
      = some { a with balance := a.balance + amount_to a.account_name clients.flatten } :=
  conservation accounts clients schedule hnodup hdep hint i a hi

theorem deposits_only_conservation_witness :
    Interleaving (List.replicate 100 [⟨"deposit", "A", 1⟩])
        (List.replicate 100 ⟨"deposit", "A", 1⟩) ∧
    (run_schedule [⟨"A", 0⟩] (List.replicate 100 ⟨"deposit", "A", 1⟩))[0]?
      = some ⟨"A", 100⟩ := by
  have hint : Interleaving (List.replicate 100 [(⟨"deposit", "A", 1⟩ : Transaction)])
      (List.replicate 100 ⟨"deposit", "A", 1⟩) := by
    have h := Interleaving.sequential (List.replicate 100 [(⟨"deposit", "A", 1⟩ : Transaction)])
    rw [flatten_replicate_singleton] at h
    exact h
  refine ⟨hint, ?_⟩
  have h := deposits_only_conservation [⟨"A", 0⟩]
    (List.replicate 100 [⟨"deposit", "A", 1⟩]) (List.replicate 100 ⟨"deposit", "A", 1⟩)
    (by decide)
    (by
      intro c hc t ht
      rw [List.eq_of_mem_replicate hc] at ht
      rw [List.mem_singleton.mp ht])
    hint 0 ⟨"A", 0⟩ rfl
  rw [h, flatten_replicate_singleton, amount_to_replicate "A" 100 _ rfl]
  rfl

/-- Race stress test of the specification: with the single account `("A", 0)` and 100
clients that each submit `[deposit A 1]`, every interleaving ends with `A = 100`. -/
theorem race_stress_test (schedule : List Transaction)
    (hint : Interleaving (List.replicate 100 [⟨"deposit", "A", 1⟩]) schedule) :
    run_schedule [⟨"A", 0⟩] schedule = [⟨"A", 100⟩] := by
  have h := conservation [⟨"A", 0⟩]
    (List.replicate 100 [⟨"deposit", "A", 1⟩]) schedule
    (by decide)
    (by
      intro c hc t ht
      rw [List.eq_of_mem_replicate hc] at ht
      rw [List.mem_singleton.mp ht])
    hint 0 ⟨"A", 0⟩ rfl
  have hlen : (run_schedule [⟨"A", 0⟩] schedule).length = 1 := by
    have := congrArg List.length (run_schedule_names [⟨"A", 0⟩] schedule)
    simpa using this
  match hrun : run_schedule [⟨"A", 0⟩] schedule, hlen with
  | [b], _ =>
    rw [hrun, flatten_replicate_singleton, amount_to_replicate "A" 100 _ rfl] at h
    simp at h
    rw [h]

/-- C9 (example scenario): with accounts `[("A", 100), ("B", 50)]`,
`Client1 = [deposit A 50, withdraw A 30]` and `Client2 = [withdraw A 200, deposit B 20]`,
every interleaving ends with `A = 120` and `B = 70`, and wherever the withdraw of 200
stands in the schedule (position `k`), it leaves the ledger it finds unchanged. -/
theorem example_scenario (schedule : List Transaction)
    (hint : Interleaving
      [[⟨"deposit", "A", 50⟩, ⟨"withdraw", "A", 30⟩],
       [⟨"withdraw", "A", 200⟩, ⟨"deposit", "B", 20⟩]] schedule) :
    run_schedule [⟨"A", 100⟩, ⟨"B", 50⟩] schedule = [⟨"A", 120⟩, ⟨"B", 70⟩] ∧
    ∀ k, k < 4 → schedule[k]? = some ⟨"withdraw", "A", 200⟩ →
      process_transaction (run_schedule [⟨"A", 100⟩, ⟨"B", 50⟩] (schedule.take k))
          ⟨"withdraw", "A", 200⟩
        = run_schedule [⟨"A", 100⟩, ⟨"B", 50⟩] (schedule.take k) := by
  have hlen : schedule.length = 4 := by
    have := hint.perm.length_eq
    simpa using this
  have hmem := hint.mem_interleavings 4 (Nat.le_of_eq hlen)
  have hall : ∀ s ∈ interleavings 4
      [[⟨"deposit", "A", 50⟩, ⟨"withdraw", "A", 30⟩],
       [⟨"withdraw", "A", 200⟩, ⟨"deposit", "B", 20⟩]],
      run_schedule [⟨"A", 100⟩, ⟨"B", 50⟩] s = [⟨"A", 120⟩, ⟨"B", 70⟩] ∧
      ∀ k, k < 4 → s[k]? = some ⟨"withdraw", "A", 200⟩ →
        process_transaction (run_schedule [⟨"A", 100⟩, ⟨"B", 50⟩] (s.take k))
            ⟨"withdraw", "A", 200⟩
          = run_schedule [⟨"A", 100⟩, ⟨"B", 50⟩] (s.take k) := by
    decide
  exact hall schedule hmem

theorem example_scenario_witness :
    Interleaving
      [[⟨"deposit", "A", 50⟩, ⟨"withdraw", "A", 30⟩],
       [⟨"withdraw", "A", 200⟩, ⟨"deposit", "B", 20⟩]]
      [⟨"withdraw", "A", 200⟩, ⟨"deposit", "A", 50⟩, ⟨"deposit", "B", 20⟩,
        ⟨"withdraw", "A", 30⟩] ∧
    run_schedule [⟨"A", 100⟩, ⟨"B", 50⟩]
      [⟨"withdraw", "A", 200⟩, ⟨"deposit", "A", 50⟩, ⟨"deposit", "B", 20⟩,
        ⟨"withdraw", "A", 30⟩] = [⟨"A", 120⟩, ⟨"B", 70⟩] :=
  ⟨interleavings_sound 4 _ _ (by decide),
   (example_scenario _ (interleavings_sound 4 _ _ (by decide))).1⟩

end Bank

namespace Bank

/-- C7, counterexample: an input file in which two accounts are named `A1` is
accepted; `initialize` stores both accounts, the client thread runs and `main`
reports both balances. -/
theorem duplicate_accounts_accepted :
    initialize_bank (some "A1 balance 100\nA1 balance 50\nC1 deposit A1 10\n")
      = .ok ⟨2, 1, [⟨"A1", 100⟩, ⟨"A1", 50⟩], [⟨"C1", [⟨"deposit", "A1", 10⟩]⟩]⟩ ∧
    ¬ (([⟨"A1", 100⟩, ⟨"A1", 50⟩] : List BankAccount).map (fun a => a.account_name)).Nodup ∧
    main (some "A1 balance 100\nA1 balance 50\nC1 deposit A1 10\n") none
      = [.report ⟨2, 1, [("A1", 110), ("A1", 50)]⟩] := by
  refine ⟨by decide, by decide, by decide⟩

/-- C7, amended: duplicate account names are not rejected at setup.  For every list
of accounts and every non-empty list of client operations that an input file can
describe within the limits of the program (`account_ok`, `client_ok`), whether or
not two accounts share a name, `initialize` reads the file of these accounts and
clients without failure and stores exactly these accounts, in input order; `main`
then runs the client threads: for every interleaving of the clients' transaction
lists it reports the balances that these transactions leave, for every account in
input order, and it has no other outcome. -/
theorem duplicates_not_rejected (accounts : List BankAccount)
    (clients : List ClientOperation)
    (ha : ∀ a ∈ accounts, account_ok a = true) (hc : ∀ c ∈ clients, client_ok c = true)
    (hne : clients ≠ []) :
    initialize_bank (some (render_file accounts clients))
      = .ok ⟨accounts.length, clients.length, accounts, clients⟩ ∧
    (∀ schedule, Interleaving (clients.map (fun op => op.transactions)) schedule →
      Outcome.report
          ⟨accounts.length, clients.length, report (run_schedule_int accounts schedule)⟩
        ∈ main (some (render_file accounts clients)) none) ∧
    (∀ out ∈ main (some (render_file accounts clients)) none,
      ∃ schedule, Interleaving (clients.map (fun op => op.transactions)) schedule ∧
        out = Outcome.report
          ⟨accounts.length, clients.length,
            report (run_schedule_int accounts schedule)⟩) := by
  refine ⟨initialize_render accounts clients ha hc, ?_, ?_⟩
  · intro schedule hint
    rw [main_render accounts clients ha hc hne]
    apply List.mem_map_of_mem
    exact hint.mem_interleavings _ (Nat.le_of_eq hint.perm.length_eq)
  · intro out hout
    rw [main_render accounts clients ha hc hne] at hout
    obtain ⟨schedule, hs, rfl⟩ := List.mem_map.mp hout
    exact ⟨schedule, interleavings_sound _ _ _ hs, rfl⟩

theorem duplicates_not_rejected_witness :
    render_file [⟨"A1", 100⟩, ⟨"A1", 50⟩] [⟨"C1", [⟨"deposit", "A1", 10⟩]⟩]
      = "A1 balance 100\nA1 balance 50\nC1 deposit A1 10\n" ∧
    initialize_bank
        (some (render_file [⟨"A1", 100⟩, ⟨"A1", 50⟩] [⟨"C1", [⟨"deposit", "A1", 10⟩]⟩]))
      = .ok ⟨2, 1, [⟨"A1", 100⟩, ⟨"A1", 50⟩], [⟨"C1", [⟨"deposit", "A1", 10⟩]⟩]⟩ ∧
    Outcome.report ⟨2, 1, [("A1", 110), ("A1", 50)]⟩
      ∈ main
        (some (render_file [⟨"A1", 100⟩, ⟨"A1", 50⟩] [⟨"C1", [⟨"deposit", "A1", 10⟩]⟩]))
        none := by
  have ha : ∀ a ∈ ([⟨"A1", 100⟩, ⟨"A1", 50⟩] : List BankAccount), account_ok a = true := by
    decide
  have hc : ∀ c ∈ ([⟨"C1", [⟨"deposit", "A1", 10⟩]⟩] : List ClientOperation),
      client_ok c = true := by
    intro c hmem
    simp only [List.mem_singleton] at hmem
    subst hmem
    simp [client_ok, render_client, render_transactions, render_transaction, render_int,
      render_nat]
    decide
  have hfile : render_file [⟨"A1", 100⟩, ⟨"A1", 50⟩] [⟨"C1", [⟨"deposit", "A1", 10⟩]⟩]
      = "A1 balance 100\nA1 balance 50\nC1 deposit A1 10\n" := by
    simp [render_file, render_account, render_client, render_transactions,
      render_transaction, render_int, render_nat]
  refine ⟨hfile, (duplicates_not_rejected _ _ ha hc (by simp)).1, ?_⟩
  have hrun := (duplicates_not_rejected _ _ ha hc (by simp)).2.1 [⟨"deposit", "A1", 10⟩]
    (interleavings_sound 1 _ _ (by decide))
  have hval : report (run_schedule_int [⟨"A1", 100⟩, ⟨"A1", 50⟩] [⟨"deposit", "A1", 10⟩])
      = [("A1", 110), ("A1", 50)] := by decide
  rw [hval] at hrun
  exact hrun

/-- C10, counterexample: on the non-negative balance `INT_MAX` a withdraw of `-1`
passes the test `balance >= amount`, the subtraction overflows the `int`, and the
balance that is stored and reported is `INT_MIN`: it did not increase. -/
theorem negative_withdraw_overflows :
    (2147483647 : Int) ≥ -1 ∧
    process_transaction_int [⟨"A1", 2147483647⟩] ⟨"withdraw", "A1", -1⟩
      = [⟨"A1", -2147483648⟩] ∧
    ¬ ((2147483647 : Int) < -2147483648) ∧
    main (some "A1 balance 2147483647\nC1 withdraw A1 -1\n") none
      = [.report ⟨1, 1, [("A1", -2147483648)]⟩] := by
  refine ⟨by decide, by decide, by decide, by decide⟩

/-- C10, amended (the sign of an amount is never checked), with the arithmetic of
`int`: on the first account named by the transaction, with an `int` balance
`b >= 0`, a deposit of the `int` amount `-k` with `b < k` leaves the negative balance
`b - k`; a withdraw of the `int` amount `-k` with `0 < k` always passes the test
`balance >= amount`, and it raises the balance to `b + k` whenever `b + k` is at most
`INT_MAX`.  Such amounts do come out of `initialize`, whose `%d` reads a sign, and
`main` reports the negative balance. -/
theorem amount_sign_unchecked :
    (∀ (accounts : List BankAccount) (i : Nat) (a : BankAccount) (k : Int),
      accounts[i]? = some a →
      (∀ j b, j < i → accounts[j]? = some b → b.account_name ≠ a.account_name) →
      in_int a.balance = true → in_int (-k) = true →
      0 ≤ a.balance → a.balance < k →
      (process_transaction_int accounts ⟨"deposit", a.account_name, -k⟩)[i]?
        = some { a with balance := a.balance - k } ∧ a.balance - k < 0) ∧
    (∀ (accounts : List BankAccount) (i : Nat) (a : BankAccount) (k : Int),
      accounts[i]? = some a →
      (∀ j b, j < i → accounts[j]? = some b → b.account_name ≠ a.account_name) →
      in_int a.balance = true → in_int (-k) = true →
      0 ≤ a.balance → 0 < k →
      a.balance ≥ -k ∧
      (a.balance + k ≤ 2147483647 →
        (process_transaction_int accounts ⟨"withdraw", a.account_name, -k⟩)[i]?
          = some { a with balance := a.balance + k } ∧ a.balance < a.balance + k)) ∧
    initialize_bank (some "A1 balance 5\nA2 balance 0\nC1 deposit A1 -7 withdraw A2 -3\n")
      = .ok ⟨2, 1, [⟨"A1", 5⟩, ⟨"A2", 0⟩],
          [⟨"C1", [⟨"deposit", "A1", -7⟩, ⟨"withdraw", "A2", -3⟩]⟩]⟩ ∧
    main (some "A1 balance 5\nA2 balance 0\nC1 deposit A1 -7 withdraw A2 -3\n") none
      = [.report ⟨2, 1, [("A1", -2), ("A2", 3)]⟩] := by
  refine ⟨?_, ?_, by decide, by decide⟩
  · intro accounts i a k hi hfirst hb hk h0 hlt
    have hlen : i < accounts.length := lt_of_getElem? hi
    simp only [in_int, Bool.and_eq_true, decide_eq_true_eq] at hb hk
    have hw : wrap_int (a.balance + -k) = a.balance - k := by
      unfold wrap_int
      omega
    rw [process_transaction_int_first_match accounts _ i a hi rfl hfirst]
    refine ⟨?_, by omega⟩
    simp [apply_transaction_int, hlen, hw]
  · intro accounts i a k hi hfirst hb hk h0 hpos
    have hlen : i < accounts.length := lt_of_getElem? hi
    simp only [in_int, Bool.and_eq_true, decide_eq_true_eq] at hb hk
    have hge : a.balance ≥ -k := by omega
    refine ⟨hge, ?_⟩
    intro hmax
    have hw : wrap_int (a.balance - -k) = a.balance + k := by
      unfold wrap_int
      omega
    have hw2 : wrap_int (a.balance + k) = a.balance + k := by
      unfold wrap_int
      omega
    have hnd : ¬ ("withdraw" : String) = "deposit" := by decide
    rw [process_transaction_int_first_match accounts _ i a hi rfl hfirst]
    refine ⟨?_, by omega⟩
    simp [apply_transaction_int, hlen, hw, hw2, hge, hnd]

theorem amount_sign_unchecked_witness :
    (process_transaction_int [⟨"B", 1⟩, ⟨"A1", 5⟩] ⟨"deposit", "A1", -7⟩)[1]?
      = some ⟨"A1", -2⟩ ∧
    (process_transaction_int [⟨"A2", 0⟩] ⟨"withdraw", "A2", -3⟩)[0]? = some ⟨"A2", 3⟩ :=
  ⟨((amount_sign_unchecked.1 [⟨"B", 1⟩, ⟨"A1", 5⟩] 1 ⟨"A1", 5⟩ 7 rfl
      (fun j b hj hb => by
        have hj0 : j = 0 := by omega
        subst hj0
        simp at hb
        subst hb
        decide)
      (by decide) (by decide) (by decide) (by decide)).1).trans (by decide),
   (((amount_sign_unchecked.2.1 [⟨"A2", 0⟩] 0 ⟨"A2", 0⟩ 3 rfl
      (fun j b hj _ => absurd hj (Nat.not_lt_zero j))
      (by decide) (by decide) (by decide) (by decide)).2 (by decide)).1).trans (by decide)⟩

end Bank

namespace Bank

/-- C6 (per-account critical-section discipline), in every state `w` that the client
threads reach from the start of `main`, whatever the scheduler does:
(1) a step that reads or writes `accounts[i].balance` is made by the thread that owns
`accounts[i].mutex`; (2) the owner of a mutex changes only by a `lock` step of a
thread that finds it free and by the `unlock` step of its owner; (3) a thread in the
loop over the accounts or between two calls owns no mutex, and (4) its steps there,
the no-match path included, touch no mutex and no balance; (5) a thread that owns a
mutex can always move and, in at most four steps of its own, gives it back with its
`unlock` step, which ends the call; (6) two different threads never own the mutex of
the same account, so their check-and-update of that balance never overlap; (7) when
all threads are done, the balances are those of whole transactions applied one at a
time in some interleaving of the clients' lists, and (8) the scheduler can always
bring all threads to the end of their lists (no thread is left waiting for a mutex
that is never given back). -/
theorem critical_section_discipline (accounts : List BankAccount)
    (clients : List (List Transaction)) (sched : List Nat) :
    (∀ (tid i : Nat) (a : Action) (w2 : World),
      step (reached accounts clients sched) tid = some (some a, w2) →
      (a = .read i ∨ a = .write i) →
      (reached accounts clients sched).mutexes[i]? = some (some tid)) ∧
    (∀ (tid i : Nat) (e : Option Action) (w2 : World),
      step (reached accounts clients sched) tid = some (e, w2) →
      (e = some (.lock i) ∧ (reached accounts clients sched).mutexes[i]? = some none ∧
        w2.mutexes[i]? = some (some tid)) ∨
      (e = some (.unlock i) ∧
        (reached accounts clients sched).mutexes[i]? = some (some tid) ∧
        w2.mutexes[i]? = some none) ∨
      (e ≠ some (.lock i) ∧ e ≠ some (.unlock i) ∧
        w2.mutexes[i]? = (reached accounts clients sched).mutexes[i]?)) ∧
    (∀ (tid i : Nat) (th : Thread),
      (reached accounts clients sched).threads[tid]? = some th → th.pc.held = none →
      (reached accounts clients sched).mutexes[i]? ≠ some (some tid)) ∧
    (∀ (tid k : Nat) (th : Thread) (e : Option Action) (w2 : World),
      (reached accounts clients sched).threads[tid]? = some th → th.pc = .scan k →
      step (reached accounts clients sched) tid = some (e, w2) →
      e = none ∧ w2.mutexes = (reached accounts clients sched).mutexes ∧
        w2.accounts = (reached accounts clients sched).accounts) ∧
    (∀ (tid i : Nat) (th : Thread),
      (reached accounts clients sched).threads[tid]? = some th → th.pc.held = some i →
      th.pc.rank ≤ 4 ∧
      ∃ e w2 th2, step (reached accounts clients sched) tid = some (e, w2) ∧
        w2.threads[tid]? = some th2 ∧ th2.pc.rank < th.pc.rank ∧
        (th2.pc.held = some i ∨
          (e = some (.unlock i) ∧ th2 = ⟨th.transactions.tail, .scan 0⟩))) ∧
    (∀ (tid1 tid2 i : Nat) (th1 th2 : Thread), tid1 ≠ tid2 →
      (reached accounts clients sched).threads[tid1]? = some th1 →
      (reached accounts clients sched).threads[tid2]? = some th2 →
      ¬ (th1.pc.held = some i ∧ th2.pc.held = some i)) ∧
    ((∀ th ∈ (reached accounts clients sched).threads, th.transactions = []) →
      ∃ s, Interleaving clients s ∧
        (reached accounts clients sched).accounts = run_schedule accounts s) ∧
    (∃ sched2, ∀ th ∈ (reached accounts clients (sched ++ sched2)).threads,
      th.transactions = []) := by
  have hinv : Inv (reached accounts clients sched) :=
    run_inv _ sched (inv_start accounts clients)
  refine ⟨?_, ?_, ?_, ?_, ?_, ?_, atomicity accounts clients sched, ?_⟩
  rotate_right
  · obtain ⟨h, hg⟩ := reached_good accounts clients sched
    obtain ⟨sched2, hfin⟩ := completes _ _ h (Nat.le_refl _) hg
    refine ⟨sched2, ?_⟩
    unfold reached
    rw [run_append]
    exact hfin
  · intro tid i a w2 hstep ha
    obtain ⟨th, hth, hheld⟩ := step_access hstep ha
    exact hinv.owner tid th i hth hheld
  · intro tid i e w2 hstep
    exact step_mutex hinv hstep i
  · intro tid i th hth hheld
    exact no_mutex_outside hinv hth hheld i
  · intro tid k th e w2 hth hpc hstep
    exact step_scan hth hpc hstep
  · intro tid i th hth hheld
    refine ⟨?_, step_progress hinv hth hheld⟩
    cases hp : th.pc <;> simp [Pc.rank]
  · intro tid1 tid2 i th1 th2 hne h1 h2 hboth
    exact mutual_exclusion hinv hne h1 h2 hboth.1 hboth.2

/-- The example scenario under a scheduler that switches threads inside the calls:
both threads contend for the mutex of `A`, thread 1 is made to wait, and all
transactions are done at the end with `A = 120` and `B = 70`. -/
theorem contended_run_example :
    reached [⟨"A", 100⟩, ⟨"B", 50⟩]
        [[⟨"deposit", "A", 50⟩, ⟨"withdraw", "A", 30⟩],
         [⟨"withdraw", "A", 200⟩, ⟨"deposit", "B", 20⟩]]
        [0, 1, 0, 1, 1, 0]
      = ⟨[⟨"A", 100⟩, ⟨"B", 50⟩], [some 0, none],
          [⟨[⟨"deposit", "A", 50⟩, ⟨"withdraw", "A", 30⟩], .store 0 150⟩,
           ⟨[⟨"withdraw", "A", 200⟩, ⟨"deposit", "B", 20⟩], .lock 0⟩]⟩ ∧
    step (reached [⟨"A", 100⟩, ⟨"B", 50⟩]
        [[⟨"deposit", "A", 50⟩, ⟨"withdraw", "A", 30⟩],
         [⟨"withdraw", "A", 200⟩, ⟨"deposit", "B", 20⟩]]
        [0, 1, 0, 1, 1, 0]) 1 = none ∧
    reached [⟨"A", 100⟩, ⟨"B", 50⟩]
        [[⟨"deposit", "A", 50⟩, ⟨"withdraw", "A", 30⟩],
         [⟨"withdraw", "A", 200⟩, ⟨"deposit", "B", 20⟩]]
        [0, 1, 0, 1, 1, 0, 0, 1, 0, 1, 1, 0, 1, 0, 1, 0, 1, 0, 1, 0, 1, 0, 1, 0, 1, 1, 1]
      = ⟨[⟨"A", 120⟩, ⟨"B", 70⟩], [none, none], [⟨[], .scan 0⟩, ⟨[], .scan 0⟩]⟩ := by
  refine ⟨by decide, by decide, by decide⟩

end Bank
